import Mathlib

/- Verification development for the can4python library.

   The Python source is embedded shallowly:
   * Python bytes objects become List Nat with entries below 256
     (checked where Python bytes() checks).
   * Python unbounded int becomes Nat or Int as appropriate.
   * Python float (IEEE-754 binary64) becomes a rational that is the exact
     value of the float; every arithmetic operation is followed by correct
     rounding to 53 significand bits, round-to-nearest ties-to-even.  The
     exponent is unbounded in the model (no overflow, infinity or subnormal
     handling); every value exercised in the theorems below is far inside
     the normal binary64 range, where the model is exact.
   * raised exceptions become Except values.
-/

set_option maxRecDepth 1000000

namespace Can4python

section Can4pythonAll

attribute [local semireducible] Rat.add Rat.mul Rat.inv Rat.sub

/-! ## Model of IEEE-754 binary64 (Python float) arithmetic -/

/-- Fuel-based bit length helper (number of binary digits). -/
def bitsAux : Nat → Nat → Nat
  | 0, _ => 0
  | fuel+1, n => if n = 0 then 0 else bitsAux fuel (n / 2) + 1

/-- Number of binary digits of a natural number (0 for 0). -/
def bits (n : Nat) : Nat := bitsAux n n

/-- Binade exponent of a positive rational: the unique e with 2^e ≤ q < 2^(e+1). -/
def ratExp (q : ℚ) : ℤ :=
  let e0 : ℤ := (bits q.num.toNat : ℤ) - (bits q.den : ℤ)
  if (2:ℚ)^e0 ≤ q then e0 else e0 - 1

/-- Round a rational to the nearest integer, ties to even. -/
def rne (q : ℚ) : ℤ :=
  let n := ⌊q⌋
  if q - n < 1/2 then n
  else if (1:ℚ)/2 < q - n then n + 1
  else if n % 2 = 0 then n else n + 1

/-- Round a positive rational to a floating-point value with prec significand
    bits, nearest, ties to even, unbounded exponent. -/
def flPos (prec : Nat) (q : ℚ) : ℚ :=
  let s : ℤ := (prec : ℤ) - 1 - ratExp q
  (rne (q * (2:ℚ)^s) : ℚ) * (2:ℚ)^(-s)

/-- Round any rational to a floating-point value with prec significand bits. -/
def flp (prec : Nat) (q : ℚ) : ℚ :=
  if q = 0 then 0 else if q < 0 then - flPos prec (-q) else flPos prec q

/-- Correct rounding to IEEE-754 binary64 (Python float). -/
def fl (q : ℚ) : ℚ := flp 53 q

/-- Correct rounding to IEEE-754 binary32 (C float), used by struct pack with
    format f. -/
def fl32 (q : ℚ) : ℚ := flp 24 q

/-- Python float addition: exact sum, then one correct rounding. -/
def fadd (x y : ℚ) : ℚ := fl (x + y)

/-- Python float subtraction: exact difference, then one correct rounding. -/
def fsub (x y : ℚ) : ℚ := fl (x - y)

/-- Python float multiplication: exact product, then one correct rounding. -/
def fmul (x y : ℚ) : ℚ := fl (x * y)

/-- Python float true division: exact quotient, then one correct rounding. -/
def fdiv (x y : ℚ) : ℚ := fl (x / y)

/-- Python int() applied to a float: truncation toward zero. -/
def truncQ (q : ℚ) : ℤ := if 0 ≤ q then ⌊q⌋ else -⌊-q⌋

/-! ## Error model

The Python code signals failure with CanException, failed assert statements
and struct.error; the embedding distinguishes them. -/

inductive CanErr where
  /-- CanException: frame too short for the signal. -/
  | frameTooShort
  /-- CanException: physical value out of the representable range. -/
  | valueOutOfRange
  /-- CanException: wrong value given to the twos-complement helpers. -/
  | twosComplementRange
  /-- CanException: received frame length differs from the definition dlc. -/
  | wrongDlc
  /-- CanException: frame id or frame data rejected by a property setter. -/
  | badFrame
  /-- CanException: negative time interval. -/
  | negativeInterval
  /-- CanException raised while validating a signal definition. -/
  | badSignal
  /-- A failed assert statement (Python AssertionError). -/
  | assertFailed
  /-- struct.error or OverflowError from struct pack and unpack. -/
  | structError
  /-- An IEEE-754 special value (infinity or NaN); outside this model. -/
  | ieeeSpecial
  deriving DecidableEq, Repr

instance {ε α : Type} [DecidableEq ε] [DecidableEq α] : DecidableEq (Except ε α) :=
  fun a b =>
  match a, b with
  | .error e1, .error e2 =>
      if h : e1 = e2 then .isTrue (by rw [h]) else .isFalse (by intro hh; cases hh; exact h rfl)
  | .error _, .ok _ => .isFalse (by intro h; cases h)
  | .ok _, .error _ => .isFalse (by intro h; cases h)
  | .ok x, .ok y =>
      if h : x = y then .isTrue (by rw [h]) else .isFalse (by intro hh; cases hh; exact h rfl)

/-! ## utilities.py -/

/-- Constant MAX_NUMBER_OF_CAN_DATA_BYTES from constants.py. -/
def MAX_NUMBER_OF_CAN_DATA_BYTES : Nat := 8

/-- Constant BITS_PER_BYTE from constants.py. -/
def BITS_PER_BYTE : Nat := 8

/-- Constant BITS_IN_FULL_DATA from constants.py. -/
def BITS_IN_FULL_DATA : Nat := 64

/-- calculate_backward_bitnumber from utilities.py.  Defined for
    0 ≤ n < 64; the Python range checks become hypotheses of the theorems. -/
def calculate_backward_bitnumber (normal_bitnumber : Nat) : Nat :=
  let bytenumber := normal_bitnumber / BITS_PER_BYTE
  let offset_in_the_byte := normal_bitnumber - bytenumber * BITS_PER_BYTE
  let basevalue_per_byte := (MAX_NUMBER_OF_CAN_DATA_BYTES - 1 - bytenumber) * BITS_PER_BYTE
  basevalue_per_byte + offset_in_the_byte

/-- calculate_normal_bitnumber from utilities.py. -/
def calculate_normal_bitnumber (backward_bitnumber : Nat) : Nat :=
  let bytenumber := MAX_NUMBER_OF_CAN_DATA_BYTES - 1 - backward_bitnumber / BITS_PER_BYTE
  let offset_in_the_byte :=
    backward_bitnumber - (MAX_NUMBER_OF_CAN_DATA_BYTES - 1 - bytenumber) * BITS_PER_BYTE
  offset_in_the_byte + bytenumber * BITS_PER_BYTE

/-- Right-pad a byte list with zero bytes to 8 entries (bytes.ljust in
    can_bytes_to_int and get_rawframe). -/
def pad8 (bs : List Nat) : List Nat := bs ++ List.replicate (8 - bs.length) 0

/-- can_bytes_to_int from utilities.py: pad to 8 bytes on the right, then
    read as one big-endian 64-bit unsigned integer (struct format >Q). -/
def can_bytes_to_int (input_bytes : List Nat) : Nat :=
  (pad8 input_bytes).foldl (fun a b => a * 256 + b) 0

/-- int_to_can_bytes from utilities.py: write dataint as 8 big-endian bytes
    (struct format >Q, defined for dataint < 2^64) and keep the first dlc. -/
def int_to_can_bytes (dlc : Nat) (dataint : Nat) : List Nat :=
  (((List.range 8).map (fun j => dataint / 256 ^ (7 - j) % 256)).take dlc)

/-- twos_complement from utilities.py. -/
def twos_complement (value : ℤ) (bitcnt : Nat) : Except CanErr Nat :=
  let maxvalue : ℤ := 2 ^ (bitcnt - 1) - 1
  let minvalue : ℤ := - 2 ^ (bitcnt - 1)
  if value > maxvalue ∨ value < minvalue then .error .twosComplementRange
  else if value ≥ 0 then .ok value.toNat
  else .ok (value + 2 ^ bitcnt).toNat

/-- from_twos_complement from utilities.py. -/
def from_twos_complement (value : Nat) (bitcnt : Nat) : Except CanErr ℤ :=
  let maxvalue : Nat := 2 ^ bitcnt - 1
  if value > maxvalue then .error .twosComplementRange
  else
    let max_positive_value : Nat := 2 ^ (bitcnt - 1) - 1
    if value ≤ max_positive_value then .ok (value : ℤ)
    else .ok ((value : ℤ) - 2 ^ bitcnt)

/-- split_seconds_to_full_and_part from utilities.py.  The input is the exact
    value of the Python float argument; math.floor is exact, the subtraction,
    the int conversion of the constant and the product each round once, and
    int() truncates. -/
def split_seconds_to_full_and_part (seconds_float : ℚ) : Except CanErr (ℤ × ℤ) :=
  if seconds_float < 0 then .error .negativeInterval
  else
    let seconds_full : ℤ := ⌊seconds_float⌋
    let useconds : ℤ := truncQ (fmul (fsub seconds_float (fl (seconds_full : ℚ))) (fl 1000000))
    .ok (seconds_full, useconds)

/-- Endianness values ('little' and 'big' strings in the source). -/
inductive Endianness where
  | little
  | big
  deriving DecidableEq, Repr

/-- Signal type values ('unsigned', 'signed', 'single', 'double'). -/
inductive SignalType where
  | unsigned
  | signed
  | single
  | double
  deriving DecidableEq, Repr

/-- Frame format values ('standard' and 'extended'). -/
inductive FrameFormat where
  | standard
  | extended
  deriving DecidableEq, Repr

/-- Constant MAX_CAN_FRAME_ID_STANDARD from constants.py. -/
def MAX_CAN_FRAME_ID_STANDARD : Nat := 0x7ff

/-- Constant MAX_CAN_FRAME_ID_EXTENDED from constants.py. -/
def MAX_CAN_FRAME_ID_EXTENDED : Nat := 0x1fffffff

/-- Constant CAN_MASK_EXTENDED_FRAME_BIT from constants.py. -/
def CAN_MASK_EXTENDED_FRAME_BIT : Nat := 0x80000000

/-- Constant CAN_MASK_ID_ONLY from constants.py. -/
def CAN_MASK_ID_ONLY : Nat := 0x1FFFFFFF

/-- check_frame_id_and_format from utilities.py (the frame_id argument is a
    nonnegative integer here, so only the upper bound checks remain). -/
def check_frame_id_and_format (frame_id : Nat) (frame_format : FrameFormat) :
    Except CanErr Unit :=
  if frame_format = .standard ∧ frame_id > MAX_CAN_FRAME_ID_STANDARD then .error .badFrame
  else if frame_format = .extended ∧ frame_id > MAX_CAN_FRAME_ID_EXTENDED then .error .badFrame
  else .ok ()

/-- get_busvalue_from_bytes from utilities.py.  The byte reshuffle loop for
    little endian is mirrored with List.set; the assert statements of the
    source hold under the signal validity invariant carried by the theorems. -/
def get_busvalue_from_bytes (input_bytes : List Nat) (endianness : Endianness)
    (numberofbits startbit : Nat) : Nat :=
  match endianness with
  | .big =>
    let extract_shifts := calculate_backward_bitnumber startbit
    let dataint := can_bytes_to_int input_bytes
    let shifted := dataint >>> extract_shifts
    shifted &&& ((1 <<< numberofbits) - 1)
  | .little =>
    let bytenumber_for_startbit := startbit / BITS_PER_BYTE
    let stopbit_little := startbit + numberofbits - 1
    let bytenumber_for_stopbit_little := stopbit_little / BITS_PER_BYTE
    let number_of_bytes_to_shuffle :=
      bytenumber_for_stopbit_little - bytenumber_for_startbit + 1
    let number_of_steps_to_lsbit := startbit % BITS_PER_BYTE
    let reshuffled_bytes :=
      (List.range number_of_bytes_to_shuffle).foldl
        (fun acc i =>
          acc.set (MAX_NUMBER_OF_CAN_DATA_BYTES - 1 - i)
            (input_bytes.getD (bytenumber_for_startbit + i) 0))
        (List.replicate MAX_NUMBER_OF_CAN_DATA_BYTES 0)
    let temporary_value := can_bytes_to_int reshuffled_bytes
    let shifted := temporary_value >>> number_of_steps_to_lsbit
    shifted &&& ((1 <<< numberofbits) - 1)

/-- get_shiftedvalue_from_busvalue from utilities.py. -/
def get_shiftedvalue_from_busvalue (input_value : Nat) (endianness : Endianness)
    (numberofbits startbit : Nat) : Nat :=
  let encode_shifts := calculate_backward_bitnumber startbit
  match endianness with
  | .big => input_value <<< encode_shifts
  | .little =>
    let number_of_steps_to_lsbit := encode_shifts % BITS_PER_BYTE
    let bytenumber_for_startbit := startbit / BITS_PER_BYTE
    let stopbit_little := startbit + numberofbits - 1
    let bytenumber_for_stopbit_little := stopbit_little / BITS_PER_BYTE
    let number_of_bytes_to_shuffle :=
      bytenumber_for_stopbit_little - bytenumber_for_startbit + 1
    let shifted_value := input_value <<< number_of_steps_to_lsbit
    let shifted_bytes := int_to_can_bytes MAX_NUMBER_OF_CAN_DATA_BYTES shifted_value
    let reshuffled_bytes :=
      (List.range number_of_bytes_to_shuffle).foldl
        (fun acc i =>
          acc.set (bytenumber_for_startbit + i)
            (shifted_bytes.getD (MAX_NUMBER_OF_CAN_DATA_BYTES - 1 - i) 0))
        (List.replicate MAX_NUMBER_OF_CAN_DATA_BYTES 0)
    can_bytes_to_int reshuffled_bytes

/-! ## IEEE-754 bit patterns (struct pack and unpack with formats f and d)

struct.pack converts a Python float to the 4- or 8-byte IEEE encoding
(rounding to binary32 for format f); struct.unpack is the exact inverse.
Patterns with an all-ones exponent field (infinities, NaN) are outside the
rational model and are mapped to the ieeeSpecial error. -/

/-- Encode a rational (an exact binary float value) as an IEEE bit pattern
    with the given significand bits (mbits, without the hidden bit), exponent
    bias and exponent field width.  Rounds to the target precision first,
    handles subnormal outputs, fails on overflow (OverflowError in Python). -/
def ieeeEncode (mbits ebits bias : Nat) (q : ℚ) : Except CanErr Nat :=
  if q = 0 then .ok 0
  else
    let sgn : Nat := if q < 0 then 1 else 0
    let a : ℚ := |q|
    let r : ℚ := flp (mbits + 1) a
    let e : ℤ := ratExp r
    if e > (2 ^ (ebits - 1) - 1 : ℤ) then .error .structError
    else if e ≥ 1 - (bias : ℤ) then
      -- normal: significand m with 2^mbits ≤ m < 2^(mbits+1)
      let m : ℤ := rne (r * (2:ℚ) ^ ((mbits : ℤ) - e))
      .ok (sgn <<< (mbits + ebits) + ((e + bias).toNat <<< mbits) + (m - 2 ^ mbits).toNat
        % 2 ^ mbits)
    else
      -- subnormal: round at fixed absolute precision
      let m : ℤ := rne (a * (2:ℚ) ^ ((mbits : ℤ) + (bias : ℤ) - 1))
      if m ≥ 2 ^ mbits then
        .ok (sgn <<< (mbits + ebits) + (1 <<< mbits))
      else .ok (sgn <<< (mbits + ebits) + m.toNat)

/-- Decode an IEEE bit pattern to its exact rational value; infinities and
    NaN are outside the model. -/
def ieeeDecode (mbits ebits bias : Nat) (pattern : Nat) : Except CanErr ℚ :=
  let m := pattern % 2 ^ mbits
  let e := pattern / 2 ^ mbits % 2 ^ ebits
  let sgn := pattern / 2 ^ (mbits + ebits) % 2
  let magnitude : ℚ :=
    if e = 0 then (m : ℚ) * (2:ℚ) ^ (1 - (bias : ℤ) - (mbits : ℤ))
    else ((2 ^ mbits + m : Nat) : ℚ) * (2:ℚ) ^ ((e : ℤ) - (bias : ℤ) - (mbits : ℤ))
  if e = 2 ^ ebits - 1 then .error .ieeeSpecial
  else if sgn = 1 then .ok (-magnitude) else .ok magnitude

/-- struct.pack with format >f: 32-bit pattern of the rounded binary32. -/
def packSingle (q : ℚ) : Except CanErr Nat := ieeeEncode 23 8 127 q

/-- struct.unpack with format >f applied to a 32-bit pattern. -/
def unpackSingle (pattern : Nat) : Except CanErr ℚ := ieeeDecode 23 8 127 pattern

/-- struct.pack with format >d: the 8 big-endian bytes of the binary64. -/
def packDoubleBE (q : ℚ) : Except CanErr (List Nat) := do
  let pattern ← ieeeEncode 52 11 1023 q
  .ok (int_to_can_bytes 8 pattern)

/-- struct.unpack with format >d from 8 big-endian bytes. -/
def unpackDoubleBE (bs : List Nat) : Except CanErr ℚ :=
  ieeeDecode 52 11 1023 (can_bytes_to_int bs)

/-! ## cansignal.py -/

/-- CanSignalDefinition from cansignal.py: the stored attributes of a signal
    definition.  The numeric attributes hold the exact values of the stored
    Python floats (the float() conversion in the property setters is the
    identity on floats). -/
structure CanSignalDefinition where
  signalname : String
  startbit : Nat
  numberofbits : Nat
  scalingfactor : ℚ := 1
  valueoffset : ℚ := 0
  defaultvalue : ℚ := 0
  minvalue : Option ℚ := none
  maxvalue : Option ℚ := none
  endianness : Endianness := .little
  signaltype : SignalType := .unsigned
  deriving DecidableEq, Repr

/-- Constant MAX_VALUE_FLOAT_SINGLE = 3.4e38 as the Python float literal. -/
def MAX_VALUE_FLOAT_SINGLE : ℚ := fl (34 * 10 ^ 37)

/-- Constant MAX_VALUE_FLOAT_DOUBLE = 1.7e308 as the Python float literal. -/
def MAX_VALUE_FLOAT_DOUBLE : ℚ := fl (17 * 10 ^ 307)

/-- get_maximum_possible_value from cansignal.py.  The int max_unpacked_value
    is converted to float by the multiplication, which rounds once; the
    addition rounds once. -/
def get_maximum_possible_value (s : CanSignalDefinition) : ℚ :=
  let max_unpacked_value : ℚ :=
    match s.signaltype with
    | .unsigned => fl ((2:ℚ) ^ s.numberofbits - 1)
    | .signed => fl ((2:ℚ) ^ (s.numberofbits - 1) - 1)
    | .single => MAX_VALUE_FLOAT_SINGLE
    | .double => MAX_VALUE_FLOAT_DOUBLE
  fadd (fmul max_unpacked_value s.scalingfactor) s.valueoffset

/-- get_minimum_possible_value from cansignal.py. -/
def get_minimum_possible_value (s : CanSignalDefinition) : ℚ :=
  let min_unpacked_value : ℚ :=
    match s.signaltype with
    | .unsigned => 0
    | .signed => fl (- (2:ℚ) ^ (s.numberofbits - 1))
    | .single => - MAX_VALUE_FLOAT_SINGLE
    | .double => - MAX_VALUE_FLOAT_DOUBLE
  fadd (fmul min_unpacked_value s.scalingfactor) s.valueoffset

/-- get_minimum_dlc from cansignal.py. -/
def get_minimum_dlc (s : CanSignalDefinition) : Nat :=
  match s.endianness with
  | .big => s.startbit / BITS_PER_BYTE + 1
  | .little => (s.startbit + s.numberofbits - 1) / BITS_PER_BYTE + 1

/-- The validity checks performed by the startbit and numberofbits property
    setters of cansignal.py (the construction raises otherwise). -/
def ValidPlacement (s : CanSignalDefinition) : Prop :=
  1 ≤ s.numberofbits ∧ s.startbit < BITS_IN_FULL_DATA ∧
  (if s.endianness = .little then
    s.startbit + s.numberofbits - 1 < BITS_IN_FULL_DATA
   else calculate_backward_bitnumber s.startbit + s.numberofbits - 1 <
       BITS_IN_FULL_DATA) ∧
  (s.signaltype = .single → s.numberofbits = 32) ∧
  (s.signaltype = .double → s.numberofbits = 64)

instance (s : CanSignalDefinition) : Decidable (ValidPlacement s) := by
  unfold ValidPlacement; infer_instance

/-- The range check _check_signal_value_range from cansignal.py applied to an
    optional attribute value. -/
def check_signal_value_range (s : CanSignalDefinition) (v : Option ℚ) :
    Except CanErr Unit :=
  match v with
  | none => .ok ()
  | some value =>
      if value < get_minimum_possible_value s ∨ value > get_maximum_possible_value s then
        .error .badSignal
      else .ok ()

/-- The constructor of CanSignalDefinition (cansignal.py, lines 101-122):
    when no defaultvalue is given it becomes the valueoffset; defaultvalue,
    minvalue and maxvalue are range checked by their property setters. -/
def mkCanSignalDefinition (signalname : String) (startbit numberofbits : Nat)
    (scalingfactor : ℚ := 1) (valueoffset : ℚ := 0)
    (defaultvalue : Option ℚ := none)
    (minvalue : Option ℚ := none) (maxvalue : Option ℚ := none)
    (endianness : Endianness := .little)
    (signaltype : SignalType := .unsigned) : Except CanErr CanSignalDefinition := do
  let s0 : CanSignalDefinition :=
    { signalname := signalname, startbit := startbit, numberofbits := numberofbits,
      scalingfactor := scalingfactor, valueoffset := valueoffset,
      defaultvalue := 0, minvalue := none, maxvalue := none,
      endianness := endianness, signaltype := signaltype }
  if _h : ValidPlacement s0 ∧ 0 < scalingfactor then
    let _ ← check_signal_value_range s0 minvalue
    let _ ← check_signal_value_range s0 maxvalue
    let defaultvalue := match defaultvalue with
      | none => valueoffset
      | some d => d
    let _ ← check_signal_value_range s0 (some defaultvalue)
    .ok { s0 with defaultvalue := defaultvalue, minvalue := minvalue, maxvalue := maxvalue }
  else .error .badSignal

/-- The marker characters of cansignal.py. -/
def SYMBOL_LEAST_SIGNIFICANT_BIT : Char := 'L'

/-- The marker character for the most significant bit of a signal. -/
def SYMBOL_MOST_SIGNIFICANT_BIT : Char := 'M'

/-- The marker character for the bits between the two ends of a signal. -/
def SYMBOL_OTHER_VALID_BIT : Char := 'X'

/-- The _get_overview_string method of cansignal.py: a 64 character string
    marking every bit position occupied by the signal, plus the normal
    bit number of the most significant bit. -/
def get_overview_string (s : CanSignalDefinition) : List Char × Nat :=
  let init := List.replicate BITS_IN_FULL_DATA ' '
  match s.endianness with
  | .little =>
    let stopbit := s.startbit + s.numberofbits - 1
    let l1 := init.set (BITS_IN_FULL_DATA - 1 - calculate_backward_bitnumber stopbit)
      SYMBOL_MOST_SIGNIFICANT_BIT
    let l2 := l1.set (BITS_IN_FULL_DATA - 1 - calculate_backward_bitnumber s.startbit)
      SYMBOL_LEAST_SIGNIFICANT_BIT
    let l3 :=
      if 2 < s.numberofbits then
        (List.range (stopbit - (s.startbit + 1))).foldl
          (fun acc i =>
            acc.set
              (BITS_IN_FULL_DATA - 1 - calculate_backward_bitnumber (s.startbit + 1 + i))
              SYMBOL_OTHER_VALID_BIT) l2
      else l2
    (l3, stopbit)
  | .big =>
    let startbit_backward := calculate_backward_bitnumber s.startbit
    let stopbit_backward := startbit_backward + s.numberofbits - 1
    let stopbit := calculate_normal_bitnumber stopbit_backward
    let l1 := init.set (BITS_IN_FULL_DATA - 1 - stopbit_backward)
      SYMBOL_MOST_SIGNIFICANT_BIT
    let l2 := l1.set (BITS_IN_FULL_DATA - 1 - startbit_backward)
      SYMBOL_LEAST_SIGNIFICANT_BIT
    let l3 :=
      if 2 < s.numberofbits then
        (List.range (stopbit_backward - (startbit_backward + 1))).foldl
          (fun acc i =>
            acc.set (BITS_IN_FULL_DATA - 1 - (startbit_backward + 1 + i))
              SYMBOL_OTHER_VALID_BIT) l2
      else l2
    (l3, stopbit)

/-! ## canframe_definition.py -/

/-- CanFrameDefinition from canframe_definition.py (the attributes the
    claims depend on). -/
structure CanFrameDefinition where
  frame_id : Nat
  name : String := ""
  dlc : Nat := MAX_NUMBER_OF_CAN_DATA_BYTES
  cycletime : Option ℚ := none
  frame_format : FrameFormat := .standard
  signaldefinitions : List CanSignalDefinition := []
  receive_on_change_only : Bool := false
  deriving DecidableEq, Repr

/-- get_signal_mask from canframe_definition.py: walk the overview string of
    every signal and set one bit in the output integer for every non-blank
    character, then serialize the integer to 8 bytes. -/
def get_signal_mask (fd : CanFrameDefinition) : List Nat :=
  let output_int :=
    fd.signaldefinitions.foldl
      (fun acc signaldef =>
        (List.range BITS_IN_FULL_DATA).foldl
          (fun a pos =>
            if (get_overview_string signaldef).1.getD pos ' ' ≠ ' ' then
              a ||| 2 ^ (BITS_IN_FULL_DATA - 1 - pos)
            else a) acc) 0
  int_to_can_bytes MAX_NUMBER_OF_CAN_DATA_BYTES output_int

/-- The bit accounting of the spec, section 4.1: the set of normal bit
    positions a signal occupies.  Little endian runs from the startbit up to
    the stopbit in normal numbering; big endian runs from the backward image
    of the startbit upward in backward numbering. -/
def OccupiesBit (s : CanSignalDefinition) (p : Nat) : Prop :=
  if s.endianness = Endianness.little then
    s.startbit ≤ p ∧ p ≤ s.startbit + s.numberofbits - 1
  else
    calculate_backward_bitnumber s.startbit ≤ calculate_backward_bitnumber p ∧
      calculate_backward_bitnumber p ≤
        calculate_backward_bitnumber s.startbit + s.numberofbits - 1

instance (s : CanSignalDefinition) (p : Nat) : Decidable (OccupiesBit s p) := by
  unfold OccupiesBit
  infer_instance

/-- The frame definition of the spec scenario for the signal mask: dlc 8 and
    four signals. -/
def c4_fd : CanFrameDefinition :=
  { frame_id := 4, dlc := 8,
    signaldefinitions :=
      [ { signalname := "m1", startbit := 56, numberofbits := 1 },
        { signalname := "m2", startbit := 8, numberofbits := 16,
          endianness := Endianness.big },
        { signalname := "m3", startbit := 24, numberofbits := 16 },
        { signalname := "m4", startbit := 48, numberofbits := 8,
          signaltype := SignalType.signed } ] }

/-! ## canframe.py -/

/-- CanFrame from canframe.py: frame id, 0..8 data bytes, frame format. -/
structure CanFrame where
  frame_id : Nat
  frame_data : List Nat
  frame_format : FrameFormat := .standard
  deriving DecidableEq, Repr

/-- The CanFrame constructor with the checks of the frame_id and frame_data
    property setters (frame_format is checked by the type). -/
def mkCanFrame (frame_id : Nat) (frame_data : List Nat) (frame_format : FrameFormat) :
    Except CanErr CanFrame := do
  let _ ← check_frame_id_and_format frame_id frame_format
  if frame_data.length > MAX_NUMBER_OF_CAN_DATA_BYTES ∨ ¬ frame_data.all (· < 256) then
    .error .badFrame
  else .ok { frame_id := frame_id, frame_data := frame_data, frame_format := frame_format }

/-- get_signalvalue from canframe.py.  For double signals struct.unpack needs
    exactly 8 data bytes; otherwise the unsigned field is extracted and
    converted according to the signal type.  The int-to-float conversions of
    the Python arithmetic round once each. -/
def get_signalvalue (s : CanSignalDefinition) (f : CanFrame) : Except CanErr ℚ := do
  let unpacked_value : ℚ ←
    match s.signaltype with
    | .double =>
      if f.frame_data.length ≠ 8 then .error .structError
      else
        match s.endianness with
        | .little => unpackDoubleBE f.frame_data.reverse
        | .big => unpackDoubleBE f.frame_data
    | _ => do
      let bus_value := get_busvalue_from_bytes f.frame_data s.endianness
        s.numberofbits s.startbit
      match s.signaltype with
      | .unsigned => .ok (fl bus_value)
      | .signed => do
          let v ← from_twos_complement bus_value s.numberofbits
          .ok (fl v)
      | _ => unpackSingle bus_value
  let physical_value := fadd (fmul unpacked_value s.scalingfactor) s.valueoffset
  let physical_value := match s.minvalue with
    | some minvalue => max minvalue physical_value
    | none => physical_value
  let physical_value := match s.maxvalue with
    | some maxvalue => min maxvalue physical_value
    | none => physical_value
  .ok physical_value

/-- set_signalvalue from canframe.py.  A None physical value selects the
    default value of the signal definition.  The physical value is either a
    Python int or float; its conversion to float in the scaling arithmetic
    rounds once (fl), while the range comparisons and the min and max
    clamping compare numbers exactly, as Python does. -/
def set_signalvalue (s : CanSignalDefinition) (f : CanFrame)
    (physical : Option ℚ := none) : Except CanErr CanFrame := do
  if get_minimum_dlc s > f.frame_data.length then .error .frameTooShort
  else
  let physical_value : ℚ := match physical with
    | none => s.defaultvalue
    | some v => v
  if physical_value < get_minimum_possible_value s ∨
      physical_value > get_maximum_possible_value s then
    .error .valueOutOfRange
  else
  let physical_value := match s.minvalue with
    | some minvalue => max minvalue physical_value
    | none => physical_value
  let physical_value := match s.maxvalue with
    | some maxvalue => min maxvalue physical_value
    | none => physical_value
  let scaled_value : ℚ := fdiv (fsub (fl physical_value) s.valueoffset) s.scalingfactor
  match s.signaltype with
  | .double =>
    let bs ← packDoubleBE scaled_value
    match s.endianness with
    | .little => .ok { f with frame_data := bs.reverse }
    | .big => .ok { f with frame_data := bs }
  | _ => do
    let bus_value : ℤ ←
      match s.signaltype with
      | .unsigned => .ok (truncQ scaled_value)
      | .signed => do
          let b ← twos_complement (truncQ scaled_value) s.numberofbits
          .ok (b : ℤ)
      | _ => do
          let pattern ← packSingle scaled_value
          -- pack(">f", x) gives 4 big-endian bytes; rjust(8, NULL) pads on
          -- the left; can_bytes_to_int reads the 8 bytes back
          .ok ((can_bytes_to_int (List.replicate 4 0 ++
            (List.range 4).map (fun j => pattern / 256 ^ (3 - j) % 256)) : ℤ))
    if bus_value > 2 ^ s.numberofbits - 1 then .error .assertFailed
    else if bus_value < 0 then .error .assertFailed
    else
    let bitvalues := get_shiftedvalue_from_busvalue bus_value.toNat s.endianness
      s.numberofbits s.startbit
    let raw_mask := (1 <<< s.numberofbits) - 1
    let mask := get_shiftedvalue_from_busvalue raw_mask s.endianness
      s.numberofbits s.startbit
    let dataint := can_bytes_to_int f.frame_data
    let dlc := f.frame_data.length
    let dataint := (dataint &&& ((2 ^ 64 - 1) ^^^ mask)) ||| bitvalues
    .ok { f with frame_data := int_to_can_bytes dlc dataint }

/-- Insertion into a Python dict modelled as an association list: an existing
    key is updated in place, a new key is appended. -/
def dictInsert (d : List (String × ℚ)) (k : String) (v : ℚ) : List (String × ℚ) :=
  if d.any (fun p => p.1 = k) then d.map (fun p => if p.1 = k then (k, v) else p)
  else d ++ [(k, v)]

/-- unpack from canframe.py: look the frame id up among the frame
    definitions (empty dict when absent), check the received length against
    the dlc, then decode every signal into a dict keyed by signal name. -/
def unpack (f : CanFrame) (frame_definitions : List (Nat × CanFrameDefinition)) :
    Except CanErr (List (String × ℚ)) :=
  match frame_definitions.find? (fun p => p.1 = f.frame_id) with
  | none => .ok []
  | some (_, fr_def) =>
    if f.frame_data.length ≠ fr_def.dlc then .error .wrongDlc
    else
      fr_def.signaldefinitions.foldlM
        (fun outputdict sigdef => do
          let val ← get_signalvalue sigdef f
          .ok (dictInsert outputdict sigdef.signalname val)) []

/-- The reading of the spec sentence for unpack: one entry per signal of the
    definition, in order, mapping each signal name to its decoded value (to
    be compared with the dict produced by the source). -/
def decode_signals_spec (f : CanFrame) :
    List CanSignalDefinition → Except CanErr (List (String × ℚ))
  | [] => .ok []
  | sd :: rest => do
    let val ← get_signalvalue sd f
    let tail ← decode_signals_spec f rest
    .ok ((sd.signalname, val) :: tail)

/-- Serialize a nonnegative integer below 2^32 as 4 little-endian bytes (the
    native byte order of struct format =I on the x86-64 hosts the library
    targets). -/
def le4 (x : Nat) : List Nat :=
  [x % 256, x / 256 % 256, x / 256 ^ 2 % 256, x / 256 ^ 3 % 256]

/-- get_rawframe from canframe.py: struct.pack("=IB3x8s", first_part, dlc,
    framedata8bytes) where first_part carries the extended-frame flag. -/
def get_rawframe (f : CanFrame) : List Nat :=
  let dlc := f.frame_data.length
  let framedata8bytes := pad8 f.frame_data
  let first_part :=
    if f.frame_format = .extended then f.frame_id ||| CAN_MASK_EXTENDED_FRAME_BIT
    else f.frame_id
  le4 first_part ++ [dlc] ++ [0, 0, 0] ++ framedata8bytes

/-- from_rawframe from canframe.py: unpack the 16 wire bytes, split the
    combined id field, and keep the first dlc data bytes. -/
def from_rawframe (rawframe : List Nat) : Except CanErr CanFrame := do
  if rawframe.length ≠ 16 then .error .structError
  else
    let first_part := rawframe.getD 0 0 + 256 * rawframe.getD 1 0 +
      256 ^ 2 * rawframe.getD 2 0 + 256 ^ 3 * rawframe.getD 3 0
    let dlc := rawframe.getD 4 0
    let framedata8bytes := (rawframe.drop 8).take 8
    let frame_id := first_part &&& CAN_MASK_ID_ONLY
    let frame_format : FrameFormat :=
      if first_part &&& CAN_MASK_EXTENDED_FRAME_BIT ≠ 0 then .extended else .standard
    let framedata := framedata8bytes.take dlc
    mkCanFrame frame_id framedata frame_format

/-! ## caninterface_bcm.py -/

/-- BCM flag SETTIMER. -/
def BCM_FLAG_SETTIMER : Nat := 0x0001

/-- BCM flag STARTTIMER. -/
def BCM_FLAG_STARTTIMER : Nat := 0x0002

/-- Linux BCM opcode TX_SETUP (socket.CAN_BCM_TX_SETUP). -/
def CAN_BCM_TX_SETUP : Nat := 1

/-- Linux BCM opcode TX_DELETE (socket.CAN_BCM_TX_DELETE). -/
def CAN_BCM_TX_DELETE : Nat := 2

/-- Linux BCM opcode TX_SEND (socket.CAN_BCM_TX_SEND). -/
def CAN_BCM_TX_SEND : Nat := 4

/-- The fields of the 56-byte BCM message head built by _build_bcm_header
    (the struct serialization layout itself is platform defined and not part
    of the claims). -/
structure BcmHeader where
  opcode : Nat
  flags : Nat
  ival1_count : Nat
  ival1_seconds : ℤ
  ival1_useconds : ℤ
  ival2_seconds : ℤ
  ival2_useconds : ℤ
  frame_id_std_ext : Nat
  number_of_bcm_frames : Nat
  deriving DecidableEq, Repr

/-- _build_bcm_header from caninterface_bcm.py: the interval arrives in
    milliseconds, is divided by 1000 (one float rounding) and split into
    full seconds and microseconds. -/
def build_bcm_header (opcode flags : Nat) (interval : ℚ) (frame_id : Nat)
    (frame_format : FrameFormat) (number_of_bcm_frames : Nat) :
    Except CanErr BcmHeader := do
  let frame_id_std_ext :=
    if frame_format = .extended then frame_id ||| CAN_MASK_EXTENDED_FRAME_BIT
    else frame_id
  let interval_s := fdiv interval 1000
  let (ival1_seconds, ival1_useconds) ← split_seconds_to_full_and_part 0
  let (ival2_seconds, ival2_useconds) ← split_seconds_to_full_and_part interval_s
  .ok { opcode := opcode, flags := flags, ival1_count := 0,
        ival1_seconds := ival1_seconds, ival1_useconds := ival1_useconds,
        ival2_seconds := ival2_seconds, ival2_useconds := ival2_useconds,
        frame_id_std_ext := frame_id_std_ext,
        number_of_bcm_frames := number_of_bcm_frames }

/-- One datagram written to the BCM socket: a header and the attached raw
    frames. -/
structure BcmMessage where
  header : BcmHeader
  payload : List Nat
  deriving DecidableEq, Repr

/-- send_frame from caninterface_bcm.py: a TX_SEND with zero flags and zero
    interval carrying one raw frame. -/
def bcm_send_frame (input_frame : CanFrame) : Except CanErr BcmMessage := do
  let header ← build_bcm_header CAN_BCM_TX_SEND 0 0 input_frame.frame_id
    input_frame.frame_format 1
  .ok { header := header, payload := get_rawframe input_frame }

/-- setup_periodic_send from caninterface_bcm.py: a TX_SETUP whose flags
    carry SETTIMER when an interval is supplied and STARTTIMER when the
    timer shall be (re)started. -/
def setup_periodic_send (input_frame : CanFrame) (interval : Option ℚ := none)
    (restart_timer : Bool := true) : Except CanErr BcmMessage := do
  let (flags, ival) ←
    match interval with
    | none => .ok ((0 : Nat), (0 : ℚ))
    | some i =>
      if i < 0 then .error .negativeInterval
      else .ok (BCM_FLAG_SETTIMER, i)
  let flags := if restart_timer then flags ||| BCM_FLAG_STARTTIMER else flags
  let header ← build_bcm_header CAN_BCM_TX_SETUP flags ival input_frame.frame_id
    input_frame.frame_format 1
  .ok { header := header, payload := get_rawframe input_frame }

/-! ## canbus.py -/

/-- Constant STATUS_NONPERIODIC from constants.py. -/
def STATUS_NONPERIODIC : Nat := 1

/-- Constant STATUS_PERIODIC from constants.py. -/
def STATUS_PERIODIC : Nat := 2

/-- Constant STATUS_PERIODIC_NOT_YET_STARTED from constants.py. -/
def STATUS_PERIODIC_NOT_YET_STARTED : Nat := 3

/-- The per-frame BCM transmit dispatch of CanBus.send_signals
    (canbus.py lines 236-248), for one touched frame: reads the stored
    transmission status, emits the BCM messages the loop body sends and
    returns them with the updated stored status.  The source tests the local
    variable status again after the first branch updated only the stored
    dict, and the second test carries the else branch, so both are mirrored
    exactly. -/
def send_signals_transmit_frame (status : Nat) (cycletime : Option ℚ)
    (frame : CanFrame) : Except CanErr (List BcmMessage × Nat) := do
  let (msgs1, stored) ←
    if status = STATUS_PERIODIC_NOT_YET_STARTED then do
      let m ← setup_periodic_send frame cycletime true
      .ok ([m], STATUS_PERIODIC)
    else .ok ([], status)
  let msgs2 ←
    if status = STATUS_PERIODIC then do
      let m ← setup_periodic_send frame none false
      .ok [m]
    else do
      let m ← bcm_send_frame frame
      .ok [m]
  .ok (msgs1 ++ msgs2, stored)

/-! ## Concrete objects used by the claim theorems -/

/-- An outbound frame used by the BCM state machine theorems. -/
def c1_frame : CanFrame := { frame_id := 7, frame_data := [1, 2] }

/-- A 64-bit unsigned signal with scale 1 and offset 0, little endian at
    startbit 0. -/
def c2_sig64 : CanSignalDefinition :=
  { signalname := "u64", startbit := 0, numberofbits := 64 }

/-- An all-zero 8-byte frame. -/
def c2_zero_frame : CanFrame := { frame_id := 1, frame_data := List.replicate 8 0 }

/-! ## Facts about the float model -/

theorem bitsAux_zero (fuel : Nat) : bitsAux fuel 0 = 0 := by
  cases fuel <;> simp [bitsAux]

theorem bitsAux_ok : ∀ fuel n : Nat, 1 ≤ n → n ≤ fuel →
    2 ^ (bitsAux fuel n - 1) ≤ n ∧ n < 2 ^ bitsAux fuel n := by
  intro fuel
  induction fuel with
  | zero => intro n h1 h2; omega
  | succ fuel ih =>
    intro n h1 h2
    have hne : n ≠ 0 := by omega
    rw [bitsAux, if_neg hne]
    by_cases hsmall : n = 1
    · subst hsmall
      simp [bitsAux_zero]
    · have h2le : 2 ≤ n := by omega
      have hhalf1 : 1 ≤ n / 2 := Nat.one_le_div_iff (by omega) |>.mpr h2le
      have hhalf2 : n / 2 ≤ fuel := by omega
      obtain ⟨hlo, hhi⟩ := ih (n / 2) hhalf1 hhalf2
      have hb1 : 1 ≤ bitsAux fuel (n / 2) := by
        by_contra hb
        have : bitsAux fuel (n / 2) = 0 := by omega
        rw [this] at hhi
        omega
      constructor
      · have : 2 ^ (bitsAux fuel (n / 2) + 1 - 1) = 2 * 2 ^ (bitsAux fuel (n / 2) - 1) := by
          rw [Nat.add_sub_cancel]
          calc 2 ^ bitsAux fuel (n / 2) = 2 ^ (bitsAux fuel (n / 2) - 1 + 1) := by
                congr 1; omega
            _ = 2 * 2 ^ (bitsAux fuel (n / 2) - 1) := by rw [pow_succ]; ring
        rw [this]
        omega
      · have : 2 ^ (bitsAux fuel (n / 2) + 1) = 2 * 2 ^ bitsAux fuel (n / 2) := by
          rw [pow_succ]; ring
        rw [this]
        omega

theorem bits_ok (n : Nat) (h : 1 ≤ n) : 2 ^ (bits n - 1) ≤ n ∧ n < 2 ^ bits n :=
  bitsAux_ok n n h le_rfl

theorem ratExp_spec (q : ℚ) (hq : 0 < q) :
    (2:ℚ) ^ ratExp q ≤ q ∧ q < (2:ℚ) ^ (ratExp q + 1) := by
  have hnum : 1 ≤ q.num.toNat := by
    have := Rat.num_pos.mpr hq
    omega
  have hden : 1 ≤ q.den := q.den_pos
  obtain ⟨hn1, hn2⟩ := bits_ok _ hnum
  obtain ⟨hd1, hd2⟩ := bits_ok _ hden
  have hqad : q = ((q.num.toNat : ℕ) : ℚ) / ((q.den : ℕ) : ℚ) := by
    have h0 : ((q.num.toNat : ℕ) : ℚ) = ((q.num : ℤ) : ℚ) := by
      have := Int.toNat_of_nonneg (le_of_lt (Rat.num_pos.mpr hq))
      exact_mod_cast congrArg (fun z : ℤ => (z : ℚ)) this
    rw [h0]
    exact (Rat.num_div_den q).symm
  have hdpos : (0:ℚ) < ((q.den : ℕ) : ℚ) := by positivity
  have hn2q : ((q.num.toNat : ℕ) : ℚ) < (2:ℚ) ^ (bits q.num.toNat : ℤ) := by
    rw [zpow_natCast]
    exact_mod_cast hn2
  have hn1q : (2:ℚ) ^ ((bits q.num.toNat : ℤ) - 1) ≤ ((q.num.toNat : ℕ) : ℚ) := by
    calc (2:ℚ) ^ ((bits q.num.toNat : ℤ) - 1)
        ≤ (2:ℚ) ^ ((bits q.num.toNat - 1 : ℕ) : ℤ) := by
          apply zpow_le_zpow_right₀ (by norm_num)
          omega
      _ = ((2 ^ (bits q.num.toNat - 1) : ℕ) : ℚ) := by rw [zpow_natCast]; push_cast; ring
      _ ≤ _ := by exact_mod_cast hn1
  have hd2q : ((q.den : ℕ) : ℚ) < (2:ℚ) ^ (bits q.den : ℤ) := by
    rw [zpow_natCast]
    exact_mod_cast hd2
  have hd1q : (2:ℚ) ^ ((bits q.den : ℤ) - 1) ≤ ((q.den : ℕ) : ℚ) := by
    calc (2:ℚ) ^ ((bits q.den : ℤ) - 1)
        ≤ (2:ℚ) ^ ((bits q.den - 1 : ℕ) : ℤ) := by
          apply zpow_le_zpow_right₀ (by norm_num)
          omega
      _ = ((2 ^ (bits q.den - 1) : ℕ) : ℚ) := by rw [zpow_natCast]; push_cast; ring
      _ ≤ _ := by exact_mod_cast hd1
  have hupper : q < (2:ℚ) ^ ((bits q.num.toNat : ℤ) - (bits q.den : ℤ) + 1) := by
    conv_lhs => rw [hqad]
    rw [div_lt_iff₀ hdpos]
    calc ((q.num.toNat : ℕ) : ℚ) < (2:ℚ) ^ (bits q.num.toNat : ℤ) := hn2q
      _ = (2:ℚ) ^ ((bits q.num.toNat : ℤ) - (bits q.den : ℤ) + 1) *
            (2:ℚ) ^ ((bits q.den : ℤ) - 1) := by
          rw [← zpow_add₀ (by norm_num : (2:ℚ) ≠ 0)]
          congr 1
          ring
      _ ≤ (2:ℚ) ^ ((bits q.num.toNat : ℤ) - (bits q.den : ℤ) + 1) * ((q.den : ℕ) : ℚ) := by
          apply mul_le_mul_of_nonneg_left hd1q
          positivity
  have hlower : (2:ℚ) ^ ((bits q.num.toNat : ℤ) - (bits q.den : ℤ) - 1) < q := by
    conv_rhs => rw [hqad]
    rw [lt_div_iff₀ hdpos]
    calc (2:ℚ) ^ ((bits q.num.toNat : ℤ) - (bits q.den : ℤ) - 1) * ((q.den : ℕ) : ℚ)
        < (2:ℚ) ^ ((bits q.num.toNat : ℤ) - (bits q.den : ℤ) - 1) *
            (2:ℚ) ^ (bits q.den : ℤ) := by
          apply mul_lt_mul_of_pos_left hd2q
          positivity
      _ = (2:ℚ) ^ ((bits q.num.toNat : ℤ) - 1) := by
          rw [← zpow_add₀ (by norm_num : (2:ℚ) ≠ 0)]
          congr 1
          ring
      _ ≤ ((q.num.toNat : ℕ) : ℚ) := hn1q
  have hre : ratExp q =
      if (2:ℚ) ^ ((bits q.num.toNat : ℤ) - (bits q.den : ℤ)) ≤ q then
        (bits q.num.toNat : ℤ) - (bits q.den : ℤ)
      else (bits q.num.toNat : ℤ) - (bits q.den : ℤ) - 1 := rfl
  rw [hre]
  by_cases hcond : (2:ℚ) ^ ((bits q.num.toNat : ℤ) - (bits q.den : ℤ)) ≤ q
  · rw [if_pos hcond]
    exact ⟨hcond, hupper⟩
  · rw [if_neg hcond]
    push_neg at hcond
    refine ⟨le_of_lt hlower, ?_⟩
    have harith : (bits q.num.toNat : ℤ) - (bits q.den : ℤ) - 1 + 1 =
        (bits q.num.toNat : ℤ) - (bits q.den : ℤ) := by ring
    rw [harith]
    exact hcond

theorem rne_intCast (m : ℤ) : rne (m : ℚ) = m := by
  rw [rne]
  simp [Int.floor_intCast]

theorem flPos_fix (q : ℚ) (m : ℤ)
    (hm : q * (2:ℚ) ^ ((52:ℤ) - ratExp q) = (m : ℚ)) : flPos 53 q = q := by
  have hs : ((53:ℕ) : ℤ) - 1 - ratExp q = (52:ℤ) - ratExp q := by push_cast; ring
  rw [flPos]
  simp only [hs]
  rw [hm, rne_intCast, ← hm, mul_assoc, ← zpow_add₀ (by norm_num : (2:ℚ) ≠ 0)]
  simp

theorem flPos_natCast (n : ℕ) (h1 : 1 ≤ n) (h2 : n ≤ 2 ^ 53) :
    flPos 53 (n : ℚ) = n := by
  have hq : (0:ℚ) < (n:ℚ) := by exact_mod_cast h1
  obtain ⟨he1, _⟩ := ratExp_spec (n : ℚ) hq
  have hle : ratExp (n:ℚ) ≤ 53 := by
    by_contra hgt
    push_neg at hgt
    have h54 : (54:ℤ) ≤ ratExp (n:ℚ) := by omega
    have : (2:ℚ) ^ (54:ℤ) ≤ (2:ℚ) ^ ratExp (n:ℚ) :=
      zpow_le_zpow_right₀ (by norm_num) h54
    have hbig : (2:ℚ) ^ (54:ℤ) ≤ (n:ℚ) := le_trans this he1
    have : ((2 ^ 54 : ℕ) : ℚ) ≤ (n:ℚ) := by
      calc ((2 ^ 54 : ℕ) : ℚ) = (2:ℚ) ^ (54:ℤ) := by push_cast; norm_num
        _ ≤ (n:ℚ) := hbig
    have : (2:ℕ) ^ 54 ≤ n := by exact_mod_cast this
    have : (2:ℕ) ^ 54 ≤ 2 ^ 53 := le_trans this h2
    norm_num at this
  by_cases hc : ratExp (n:ℚ) ≤ 52
  · apply flPos_fix _ (n * 2 ^ ((52:ℤ) - ratExp (n:ℚ)).toNat)
    have hnn : (0:ℤ) ≤ (52:ℤ) - ratExp (n:ℚ) := by omega
    have h2eq : (2:ℚ) ^ ((52:ℤ) - ratExp (n:ℚ)) =
        ((2 ^ ((52:ℤ) - ratExp (n:ℚ)).toNat : ℕ) : ℚ) := by
      conv_lhs => rw [← Int.toNat_of_nonneg hnn]
      rw [zpow_natCast]
      push_cast
      ring
    rw [h2eq]
    push_cast
    ring
  · have he53 : ratExp (n:ℚ) = 53 := by omega
    have hn53 : n = 2 ^ 53 := by
      have : (2:ℚ) ^ (53:ℤ) ≤ (n:ℚ) := by rw [← he53]; exact he1
      have h1' : ((2 ^ 53 : ℕ) : ℚ) ≤ (n:ℚ) := by
        calc ((2 ^ 53 : ℕ) : ℚ) = (2:ℚ) ^ (53:ℤ) := by push_cast; norm_num
          _ ≤ (n:ℚ) := this
      have h1'' : (2:ℕ) ^ 53 ≤ n := by exact_mod_cast h1'
      omega
    apply flPos_fix _ (2 ^ 52)
    rw [he53, hn53]
    push_cast
    rw [zpow_neg_one]
    norm_num

theorem fl_natCast (n : ℕ) (h : n ≤ 2 ^ 53) : fl (n : ℚ) = n := by
  rw [fl, flp]
  by_cases h0 : (n:ℚ) = 0
  · rw [if_pos h0, h0]
  · rw [if_neg h0, if_neg (by push_neg; positivity)]
    have h1 : 1 ≤ n := by
      rcases Nat.eq_zero_or_pos n with hz | hp
      · exact absurd (by simp [hz] : (n:ℚ) = 0) h0
      · exact hp
    exact flPos_natCast n h1 h

theorem fl_intCast (v : ℤ) (hv : v.natAbs ≤ 2 ^ 53) : fl (v : ℚ) = v := by
  rcases lt_trichotomy v 0 with hneg | hzero | hpos
  · rw [fl, flp]
    have hne : (v:ℚ) ≠ 0 := by
      simp only [ne_eq, Int.cast_eq_zero]
      omega
    rw [if_neg hne, if_pos (by exact_mod_cast hneg)]
    have habs : (-(v:ℚ)) = ((v.natAbs : ℕ) : ℚ) := by
      rw [Int.cast_natAbs]
      simp [abs_of_neg (show (v:ℚ) < 0 by exact_mod_cast hneg)]
    rw [habs, flPos_natCast v.natAbs (by omega) hv, ← habs]
    ring
  · rw [hzero]
    norm_num [fl, flp]
  · rw [fl, flp]
    have hne : (v:ℚ) ≠ 0 := by
      simp only [ne_eq, Int.cast_eq_zero]
      omega
    rw [if_neg hne, if_neg (by push_neg; exact_mod_cast le_of_lt hpos)]
    have hv' : (v:ℚ) = ((v.toNat : ℕ) : ℚ) := by
      exact_mod_cast (Int.toNat_of_nonneg (le_of_lt hpos)).symm
    rw [hv', flPos_natCast v.toNat (by omega) (by omega)]

theorem truncQ_intCast (m : ℤ) : truncQ (m : ℚ) = m := by
  rw [truncQ]
  by_cases h : (0:ℚ) ≤ (m:ℚ)
  · rw [if_pos h, Int.floor_intCast]
  · rw [if_neg h, ← Int.cast_neg, Int.floor_intCast]
    ring

/-! ## Byte arithmetic toolkit -/

/-- Value of a little-endian digit list in base 256 (proof helper). -/
def valLE : List Nat → Nat
  | [] => 0
  | d :: ds => d + 256 * valLE ds

/-- The base-256 digits of w, least significant first (proof helper). -/
def digitsLE (m w : Nat) : List Nat := (List.range m).map (fun i => w / 256 ^ i % 256)

theorem valLE_lt (ds : List Nat) (h : ∀ d ∈ ds, d < 256) :
    valLE ds < 256 ^ ds.length := by
  induction ds with
  | nil => simp [valLE]
  | cons d ds ih =>
    have hd : d < 256 := h d (by simp)
    have hds := ih (fun x hx => h x (by simp [hx]))
    simp only [valLE, List.length_cons, pow_succ]
    calc d + 256 * valLE ds < 256 + 256 * valLE ds := by omega
      _ ≤ 256 + 256 * (256 ^ ds.length - 1) := by
          have : valLE ds ≤ 256 ^ ds.length - 1 := by omega
          omega
      _ ≤ 256 ^ ds.length * 256 := by
          have h1 : 1 ≤ 256 ^ ds.length := Nat.one_le_pow _ _ (by norm_num)
          omega

theorem valLE_digit (ds : List Nat) (h : ∀ d ∈ ds, d < 256) (j : Nat) :
    valLE ds / 256 ^ j % 256 = ds.getD j 0 := by
  induction ds generalizing j with
  | nil => simp [valLE]
  | cons d ds ih =>
    have hd : d < 256 := h d (by simp)
    have htail : ∀ x ∈ ds, x < 256 := fun x hx => h x (by simp [hx])
    cases j with
    | zero => simp [valLE, Nat.add_mul_mod_self_left, Nat.mod_eq_of_lt hd]
    | succ j =>
      have hstep : valLE (d :: ds) / 256 ^ (j + 1) = valLE ds / 256 ^ j := by
        rw [valLE, pow_succ']
        rw [← Nat.div_div_eq_div_mul]
        congr 1
        rw [Nat.add_mul_div_left _ _ (by norm_num : (0:ℕ) < 256)]
        rw [Nat.div_eq_of_lt hd]
        omega
      rw [hstep, ih htail j]
      simp

theorem valLE_digitsLE (m w : Nat) : valLE (digitsLE m w) = w % 256 ^ m := by
  induction m generalizing w with
  | zero => simp [digitsLE, valLE, Nat.mod_one]
  | succ m ih =>
    have hr : digitsLE (m + 1) w = (w % 256) :: (digitsLE m (w / 256)) := by
      rw [digitsLE, List.range_succ_eq_map, List.map_cons, List.map_map]
      congr 1
      · norm_num
      · rw [digitsLE]
        apply List.map_congr_left
        intro i _
        simp only [Function.comp_apply]
        have h2 : (256:ℕ) ^ (i + 1) = 256 * 256 ^ i := by rw [pow_succ']
        rw [h2, ← Nat.div_div_eq_div_mul]
    rw [hr, valLE, ih]
    have h2 : (256:ℕ) ^ (m + 1) = 256 * 256 ^ m := by rw [pow_succ']
    rw [h2, Nat.mod_mul]

theorem valLE_append (l1 l2 : List Nat) :
    valLE (l1 ++ l2) = valLE l1 + 256 ^ l1.length * valLE l2 := by
  induction l1 with
  | nil => simp [valLE]
  | cons d ds ih =>
    show d + 256 * valLE (ds ++ l2) =
      d + 256 * valLE ds + 256 ^ (ds.length + 1) * valLE l2
    rw [ih, pow_succ]
    ring

theorem valLE_replicate_zero (m : Nat) : valLE (List.replicate m 0) = 0 := by
  induction m with
  | zero => rfl
  | succ m ih => simp [List.replicate_succ, valLE, ih]

/-! Characterization of foldl over List.set with distinct indices. -/

theorem foldl_set_length {α : Type} (g : Nat → α) (f : Nat → Nat) (n : Nat)
    (l : List α) :
    ((List.range n).foldl (fun acc i => acc.set (f i) (g i)) l).length = l.length := by
  induction n generalizing l with
  | zero => simp
  | succ n ih =>
    rw [List.range_succ, List.foldl_append]
    simp [ih]

theorem foldl_set_getD_miss {α : Type} (dflt : α) (g : Nat → α) (f : Nat → Nat)
    (n : Nat) (l : List α) (p : Nat) (hmiss : ∀ i, i < n → f i ≠ p) :
    ((List.range n).foldl (fun acc i => acc.set (f i) (g i)) l).getD p dflt =
      l.getD p dflt := by
  induction n generalizing l with
  | zero => simp
  | succ n ih =>
    rw [List.range_succ, List.foldl_append]
    simp only [List.foldl_cons, List.foldl_nil]
    rw [List.getD_eq_getElem?_getD, List.getElem?_set_ne (hmiss n (by omega)),
      ← List.getD_eq_getElem?_getD]
    exact ih l (fun i hi => hmiss i (by omega))

theorem foldl_set_getD_hit {α : Type} (dflt : α) (g : Nat → α) (f : Nat → Nat)
    (n : Nat) (l : List α) (i : Nat) (hi : i < n)
    (hinj : ∀ a b, a < n → b < n → f a = f b → a = b)
    (hlen : ∀ a, a < n → f a < l.length) :
    ((List.range n).foldl (fun acc i => acc.set (f i) (g i)) l).getD (f i) dflt =
      g i := by
  induction n generalizing l with
  | zero => omega
  | succ n ih =>
    rw [List.range_succ, List.foldl_append]
    simp only [List.foldl_cons, List.foldl_nil]
    by_cases hlast : i = n
    · subst hlast
      rw [List.getD_eq_getElem?_getD, List.getElem?_set_self
        (by rw [foldl_set_length]; exact hlen i hi)]
      rfl
    · have hne : f n ≠ f i := fun heq => hlast (hinj i n hi (by omega) heq.symm)
      rw [List.getD_eq_getElem?_getD, List.getElem?_set_ne hne,
        ← List.getD_eq_getElem?_getD]
      exact ih l (by omega) (fun a b ha hb => hinj a b (by omega) (by omega))
        (fun a ha => hlen a (by omega))

/-! Facts about can_bytes_to_int and int_to_can_bytes. -/

theorem pad8_length (bs : List Nat) (h : bs.length ≤ 8) : (pad8 bs).length = 8 := by
  rw [pad8, List.length_append, List.length_replicate]
  omega

theorem can_bytes_to_int_eq_valLE (bs : List Nat) :
    can_bytes_to_int bs = valLE (pad8 bs).reverse := by
  rw [can_bytes_to_int]
  generalize pad8 bs = l
  induction l using List.reverseRecOn with
  | nil => simp [valLE]
  | append_singleton l d ih =>
    rw [List.foldl_append, List.reverse_append]
    simp only [List.foldl_cons, List.foldl_nil, List.reverse_singleton,
      List.singleton_append, valLE]
    rw [ih]
    show valLE l.reverse * 256 + d = d + 256 * valLE l.reverse
    ring

theorem int_to_can_bytes_length (dlc X : Nat) (h : dlc ≤ 8) :
    (int_to_can_bytes dlc X).length = dlc := by
  rw [int_to_can_bytes, List.length_take, List.length_map, List.length_range]
  omega

theorem int_to_can_bytes_getD (dlc X j : Nat) (hj : j < dlc) (h8 : dlc ≤ 8) :
    (int_to_can_bytes dlc X).getD j 0 = X / 256 ^ (7 - j) % 256 := by
  rw [int_to_can_bytes, List.getD_eq_getElem?_getD, List.getElem?_take_of_lt hj]
  rw [List.getElem?_map]
  rw [List.getElem?_range (by omega : j < 8)]
  rfl

theorem int_to_can_bytes_entries (dlc X : Nat) :
    ∀ b ∈ int_to_can_bytes dlc X, b < 256 := by
  intro b hb
  rw [int_to_can_bytes] at hb
  obtain ⟨x, _, hx⟩ := List.mem_map.mp (List.mem_of_mem_take hb)
  rw [← hx]
  exact Nat.mod_lt _ (by norm_num)

theorem pad8_getD (bs : List Nat) (j : Nat) : (pad8 bs).getD j 0 = bs.getD j 0 := by
  rw [pad8, List.getD_eq_getElem?_getD]
  by_cases hj : j < bs.length
  · rw [List.getElem?_append_left hj, ← List.getD_eq_getElem?_getD]
  · rw [List.getElem?_append_right (by omega)]
    rw [List.getElem?_replicate]
    rw [List.getD_eq_getElem?_getD bs, List.getElem?_eq_none (by omega : bs.length ≤ j)]
    by_cases hrep : j - bs.length < 8 - bs.length
    · rw [if_pos hrep]
      rfl
    · rw [if_neg hrep]

theorem pad8_entries (bs : List Nat) (h : ∀ b ∈ bs, b < 256) :
    ∀ b ∈ pad8 bs, b < 256 := by
  intro b hb
  rcases List.mem_append.mp hb with h1 | h2
  · exact h b h1
  · rw [List.eq_of_mem_replicate h2]
    norm_num

theorem getD_reverse (l : List Nat) (j : Nat) (hj : j < l.length) :
    l.reverse.getD j 0 = l.getD (l.length - 1 - j) 0 := by
  rw [List.getD_eq_getElem?_getD, List.getD_eq_getElem?_getD]
  congr 1
  rw [List.getElem?_eq_getElem (by rw [List.length_reverse]; omega),
    List.getElem?_eq_getElem (by omega)]
  congr 1
  rw [List.getElem_reverse]

/-- Digit j of the 64-bit integer read from a byte list: byte 7 - j. -/
theorem canInt_digit (bs : List Nat) (hlen : bs.length ≤ 8)
    (h : ∀ b ∈ bs, b < 256) (j : Nat) :
    can_bytes_to_int bs / 256 ^ j % 256 = if j < 8 then bs.getD (7 - j) 0 else 0 := by
  rw [can_bytes_to_int_eq_valLE]
  have hrev : ∀ b ∈ (pad8 bs).reverse, b < 256 := by
    intro b hb
    exact pad8_entries bs h b (List.mem_reverse.mp hb)
  rw [valLE_digit _ hrev j]
  by_cases hj : j < 8
  · rw [if_pos hj, getD_reverse _ _ (by rw [pad8_length bs hlen]; omega)]
    rw [pad8_length bs hlen]
    rw [pad8_getD]
  · rw [if_neg hj]
    rw [List.getD_eq_getElem?_getD, List.getElem?_eq_none]
    · rfl
    · rw [List.length_reverse, pad8_length bs hlen]
      omega

theorem canInt_lt (bs : List Nat) (hlen : bs.length ≤ 8)
    (h : ∀ b ∈ bs, b < 256) : can_bytes_to_int bs < 2 ^ 64 := by
  rw [can_bytes_to_int_eq_valLE]
  have hrev : ∀ b ∈ (pad8 bs).reverse, b < 256 := fun b hb =>
    pad8_entries bs h b (List.mem_reverse.mp hb)
  have := valLE_lt _ hrev
  rw [List.length_reverse, pad8_length bs hlen] at this
  calc valLE (pad8 bs).reverse < 256 ^ 8 := this
    _ = 2 ^ 64 := by norm_num

/-- Bit t of the 64-bit integer read from a byte list, in terms of the byte
    list (normal bit numbering: byte t / 8, offset t % 8 counts from the
    least significant bit of the byte 7 - t / 8 seen from the integer). -/
theorem canInt_testBit (bs : List Nat) (hlen : bs.length ≤ 8)
    (h : ∀ b ∈ bs, b < 256) (t : Nat) :
    (can_bytes_to_int bs).testBit t =
      if t < 64 then (bs.getD (7 - t / 8) 0).testBit (t % 8) else false := by
  by_cases ht : t < 64
  · rw [if_pos ht]
    have hsplit : t = 8 * (t / 8) + t % 8 := (Nat.div_add_mod' t 8).symm ▸ by omega
    have hdigit := canInt_digit bs hlen h (t / 8)
    rw [if_pos (by omega)] at hdigit
    rw [← hdigit]
    have hpow : (256:ℕ) ^ (t / 8) = 2 ^ (8 * (t / 8)) := by
      rw [pow_mul]
      norm_num
    rw [hpow]
    have h256 : (256:ℕ) = 2 ^ 8 := by norm_num
    rw [h256, Nat.testBit_mod_two_pow]
    have hr : t % 8 < 8 := Nat.mod_lt _ (by norm_num)
    rw [decide_eq_true hr, Bool.true_and]
    have harg : 8 * (t / 8) + (t % 8) = t := by omega
    rw [← Nat.shiftRight_eq_div_pow, Nat.testBit_shiftRight, harg]
  · rw [if_neg ht]
    apply Nat.testBit_lt_two_pow
    calc can_bytes_to_int bs < 2 ^ 64 := canInt_lt bs hlen h
      _ ≤ 2 ^ t := Nat.pow_le_pow_right (by norm_num) (by omega)

theorem digitsLE_getD (m w j : Nat) (hj : j < m) :
    (digitsLE m w).getD j 0 = w / 256 ^ j % 256 := by
  rw [digitsLE, List.getD_eq_getElem?_getD, List.getElem?_map,
    List.getElem?_range hj]
  rfl

theorem digitsLE_length (m w : Nat) : (digitsLE m w).length = m := by
  rw [digitsLE, List.length_map, List.length_range]

theorem digitsLE_entries (m w : Nat) : ∀ d ∈ digitsLE m w, d < 256 := by
  intro d hd
  obtain ⟨i, _, hi⟩ := List.mem_map.mp hd
  rw [← hi]
  exact Nat.mod_lt _ (by norm_num)

theorem entries_of_getD (l : List Nat) (c : Nat)
    (h : ∀ p, p < l.length → l.getD p 0 < c) : ∀ b ∈ l, b < c := by
  intro b hb
  obtain ⟨p, hp, hbp⟩ := List.mem_iff_getElem.mp hb
  have := h p hp
  rw [List.getD_eq_getElem?_getD, List.getElem?_eq_getElem hp] at this
  simpa [hbp] using this

/-- Two numbers below 256^8 with the same base-256 digits are equal. -/
theorem digit_ext (X Y : Nat) (hX : X < 256 ^ 8) (hY : Y < 256 ^ 8)
    (h : ∀ j, j < 8 → X / 256 ^ j % 256 = Y / 256 ^ j % 256) : X = Y := by
  have h1 : X = valLE (digitsLE 8 X) := by
    rw [valLE_digitsLE, Nat.mod_eq_of_lt hX]
  have h2 : Y = valLE (digitsLE 8 Y) := by
    rw [valLE_digitsLE, Nat.mod_eq_of_lt hY]
  rw [h1, h2]
  congr 1
  rw [digitsLE, digitsLE]
  apply List.map_congr_left
  intro i hi
  exact h i (List.mem_range.mp hi)

theorem valLE_testBit (ds : List Nat) (h : ∀ d ∈ ds, d < 256) (t : Nat) :
    (valLE ds).testBit t = (ds.getD (t / 8) 0).testBit (t % 8) := by
  have hdigit := valLE_digit ds h (t / 8)
  rw [← hdigit]
  have h256 : (256:ℕ) = 2 ^ 8 := by norm_num
  have hpow : (256:ℕ) ^ (t / 8) = 2 ^ (8 * (t / 8)) := by
    rw [h256, ← pow_mul]
  rw [hpow, h256, Nat.testBit_mod_two_pow]
  rw [decide_eq_true (Nat.mod_lt t (by norm_num) : t % 8 < 8), Bool.true_and]
  rw [← Nat.shiftRight_eq_div_pow, Nat.testBit_shiftRight]
  congr 1
  omega

theorem valLE_zero_entries (l : List Nat) (h : ∀ b ∈ l, b = 0) : valLE l = 0 := by
  induction l with
  | nil => rfl
  | cons d ds ih =>
    rw [valLE, h d (by simp), ih (fun b hb => h b (by simp [hb]))]

theorem canInt_replicate_zero (L : Nat) : can_bytes_to_int (List.replicate L 0) = 0 := by
  rw [can_bytes_to_int_eq_valLE]
  apply valLE_zero_entries
  intro b hb
  rw [List.mem_reverse] at hb
  rcases List.mem_append.mp hb with h1 | h1 <;> exact List.eq_of_mem_replicate h1

/-- Reading back a truncated serialization: the first L bytes of the
    big-endian image of X carry X with its low 8(8-L) bits cleared. -/
theorem canInt_int_to_can_bytes (L X : Nat) (hL : L ≤ 8) (hX : X < 2 ^ 64) :
    can_bytes_to_int (int_to_can_bytes L X) = X / 256 ^ (8 - L) * 256 ^ (8 - L) := by
  have h2564 : (256:ℕ) ^ 8 = 2 ^ 64 := by norm_num
  apply digit_ext
  · apply canInt_lt _ (by rw [int_to_can_bytes_length _ _ hL]; omega)
      (int_to_can_bytes_entries L X)
  · calc X / 256 ^ (8 - L) * 256 ^ (8 - L) ≤ X := Nat.div_mul_le_self X _
      _ < 256 ^ 8 := by omega
  · intro j hj
    rw [canInt_digit _ (by rw [int_to_can_bytes_length _ _ hL]; omega)
      (int_to_can_bytes_entries L X) j, if_pos hj]
    by_cases hjL : 7 - j < L
    · rw [int_to_can_bytes_getD _ _ _ hjL hL]
      have h7 : 7 - (7 - j) = j := by omega
      rw [h7]
      have hj8L : 8 - L ≤ j := by omega
      set A := X / 256 ^ (8 - L) with hA
      have hsplitpow : (256:ℕ) ^ j = 256 ^ (8 - L) * 256 ^ (j - (8 - L)) := by
        rw [← pow_add]
        congr 1
        omega
      rw [hsplitpow, ← Nat.div_div_eq_div_mul]
      rw [Nat.mul_comm A (256 ^ (8 - L)), ← Nat.div_div_eq_div_mul,
        Nat.mul_div_cancel_left A (by positivity : 0 < (256:ℕ) ^ (8 - L))]
    · have hjlt : j < 8 - L := by omega
      rw [List.getD_eq_getElem?_getD, List.getElem?_eq_none
        (by rw [int_to_can_bytes_length _ _ hL]; omega)]
      set A := X / 256 ^ (8 - L) with hA
      have hsplitpow : (256:ℕ) ^ (8 - L) = 256 ^ j * 256 ^ (8 - L - j) := by
        rw [← pow_add]
        congr 1
        omega
      rw [hsplitpow]
      rw [show A * (256 ^ j * 256 ^ (8 - L - j)) = A * 256 ^ (8 - L - j) * 256 ^ j by ring]
      rw [Nat.mul_div_cancel _ (by positivity : 0 < (256:ℕ) ^ j)]
      have hdvd : (256:ℕ) ∣ A * 256 ^ (8 - L - j) :=
        Dvd.dvd.mul_left (dvd_pow_self 256 (by omega : 8 - L - j ≠ 0)) A
      show (0:ℕ) = A * 256 ^ (8 - L - j) % 256
      exact (Nat.mod_eq_zero_of_dvd hdvd).symm

theorem backward_eq (p : Nat) (hp : p < 64) :
    calculate_backward_bitnumber p = 8 * (7 - p / 8) + p % 8 := by
  simp only [calculate_backward_bitnumber, BITS_PER_BYTE, MAX_NUMBER_OF_CAN_DATA_BYTES]
  omega

theorem backward_lt (p : Nat) (hp : p < 64) : calculate_backward_bitnumber p < 64 := by
  rw [backward_eq p hp]
  omega

theorem backward_mod8 (p : Nat) (hp : p < 64) :
    calculate_backward_bitnumber p % 8 = p % 8 := by
  rw [backward_eq p hp]
  omega

theorem normal_backward (p : Nat) (hp : p < 64) :
    calculate_normal_bitnumber (calculate_backward_bitnumber p) = p := by
  rw [backward_eq p hp]
  simp only [calculate_normal_bitnumber, BITS_PER_BYTE, MAX_NUMBER_OF_CAN_DATA_BYTES]
  omega

theorem backward_inj (p q : Nat) (hp : p < 64) (hq : q < 64)
    (h : calculate_backward_bitnumber p = calculate_backward_bitnumber q) : p = q := by
  rw [backward_eq p hp, backward_eq q hq] at h
  omega

theorem getD_replicate_zero (m p : Nat) : (List.replicate m (0:Nat)).getD p 0 = 0 := by
  rw [List.getD_eq_getElem?_getD, List.getElem?_replicate]
  split <;> rfl

/-- Closed form of the little-endian insertion: the shuffled bytes are the
    base-256 digits of v shifted into its in-byte position, laid out in
    reversed order starting at the byte of the startbit. -/
theorem shiftedvalue_little (v n start : Nat) (h1 : 1 ≤ n)
    (hstop : start + n - 1 < 64) (hv : v < 2 ^ n) :
    get_shiftedvalue_from_busvalue v .little n start =
      valLE (List.replicate (7 - (start + n - 1) / 8) 0 ++
        (digitsLE ((start + n - 1) / 8 - start / 8 + 1)
          (v <<< (start % 8))).reverse) := by
  have hstart : start < 64 := by omega
  have hb0be : start / 8 ≤ (start + n - 1) / 8 := by omega
  have hbe7 : (start + n - 1) / 8 ≤ 7 := by omega
  have hkn : start % 8 + n ≤ 8 * ((start + n - 1) / 8 - start / 8 + 1) := by omega
  have hw : v <<< (start % 8) < 2 ^ (8 * ((start + n - 1) / 8 - start / 8 + 1)) := by
    rw [Nat.shiftLeft_eq]
    calc v * 2 ^ (start % 8) < 2 ^ n * 2 ^ (start % 8) :=
          (Nat.mul_lt_mul_right (by positivity : (0:ℕ) < 2 ^ (start % 8))).mpr hv
      _ = 2 ^ (n + start % 8) := by rw [pow_add]
      _ ≤ 2 ^ (8 * ((start + n - 1) / 8 - start / 8 + 1)) :=
          Nat.pow_le_pow_right (by norm_num) (by omega)
  have hw64 : v <<< (start % 8) < 2 ^ 64 :=
    lt_of_lt_of_le hw (Nat.pow_le_pow_right (by norm_num) (by omega))
  simp only [get_shiftedvalue_from_busvalue, MAX_NUMBER_OF_CAN_DATA_BYTES,
    BITS_PER_BYTE, backward_mod8 start hstart]
  set b0 := start / 8 with hb0def
  set be := (start + n - 1) / 8 with hbedef
  set nb := be - b0 + 1 with hnbdef
  set w := v <<< (start % 8) with hwdef
  set resh := (List.range nb).foldl
    (fun acc i => acc.set (b0 + i) ((int_to_can_bytes 8 w).getD (8 - 1 - i) 0))
    (List.replicate 8 0) with hreshdef
  have hreshlen : resh.length = 8 := by
    rw [hreshdef, foldl_set_length, List.length_replicate]
  have hchar : ∀ p, p < 8 → resh.getD p 0 =
      if b0 ≤ p ∧ p < b0 + nb then w / 256 ^ (p - b0) % 256 else 0 := by
    intro p hp
    by_cases hhit : b0 ≤ p ∧ p < b0 + nb
    · rw [if_pos hhit]
      have hi : p - b0 < nb := by omega
      have := foldl_set_getD_hit (0:Nat)
        (fun i => (int_to_can_bytes 8 w).getD (8 - 1 - i) 0)
        (fun i => b0 + i) nb (List.replicate 8 0) (p - b0) hi
        (fun a b _ _ hab => Nat.add_left_cancel hab)
        (fun a ha => by
          show b0 + a < (List.replicate 8 (0:Nat)).length
          rw [List.length_replicate]
          omega)
      simp only [] at this
      rw [show b0 + (p - b0) = p from by omega] at this
      rw [hreshdef, this]
      rw [int_to_can_bytes_getD 8 w (8 - 1 - (p - b0)) (by omega) le_rfl]
      rw [show 7 - (8 - 1 - (p - b0)) = p - b0 from by omega]
    · rw [if_neg hhit]
      have := foldl_set_getD_miss (0:Nat)
        (fun i => (int_to_can_bytes 8 w).getD (8 - 1 - i) 0)
        (fun i => b0 + i) nb (List.replicate 8 0) p (fun i hilt => by
          show b0 + i ≠ p
          omega)
      simp only [] at this
      rw [hreshdef, this, getD_replicate_zero]
  have hentries : ∀ b ∈ resh, b < 256 := by
    apply entries_of_getD
    intro p hp
    rw [hreshlen] at hp
    rw [hchar p hp]
    split
    · exact Nat.mod_lt _ (by norm_num)
    · norm_num
  have htlen : (List.replicate (7 - be) (0:Nat) ++ (digitsLE nb w).reverse).length =
      7 - be + nb := by
    rw [List.length_append, List.length_replicate, List.length_reverse,
      digitsLE_length]
  have htentries : ∀ b ∈ List.replicate (7 - be) (0:Nat) ++ (digitsLE nb w).reverse,
      b < 256 := by
    intro b hb
    rcases List.mem_append.mp hb with h | h
    · rw [List.eq_of_mem_replicate h]
      norm_num
    · exact digitsLE_entries nb w b (List.mem_reverse.mp h)
  apply digit_ext
  · exact canInt_lt resh (by omega) hentries
  · calc valLE _ < 256 ^ (7 - be + nb) := by
          rw [← htlen]
          exact valLE_lt _ htentries
      _ ≤ 256 ^ 8 := Nat.pow_le_pow_right (by norm_num) (by omega)
  · intro j hj
    rw [canInt_digit resh (by omega) hentries j, if_pos hj]
    rw [valLE_digit _ htentries j]
    rw [hchar (7 - j) (by omega)]
    by_cases hz : j < 7 - be
    · rw [List.getD_eq_getElem?_getD,
        List.getElem?_append_left (by simp only [List.length_replicate]; omega)]
      rw [List.getElem?_replicate, if_pos (by omega : j < 7 - be)]
      rw [if_neg (by omega)]
      rfl
    · rw [List.getD_eq_getElem?_getD,
        List.getElem?_append_right (by simp only [List.length_replicate]; omega)]
      simp only [List.length_replicate]
      by_cases hin : j - (7 - be) < nb
      · rw [← List.getD_eq_getElem?_getD]
        rw [getD_reverse _ _ (by rw [digitsLE_length]; omega)]
        rw [digitsLE_length]
        rw [digitsLE_getD nb w _ (by omega)]
        rw [if_pos (by omega : b0 ≤ 7 - j ∧ 7 - j < b0 + nb)]
        rw [show nb - 1 - (j - (7 - be)) = 7 - j - b0 from by omega]
      · rw [List.getElem?_eq_none (by rw [List.length_reverse, digitsLE_length]; omega)]
        rw [if_neg (by omega)]
        rfl

theorem getD_lt_256 (fb : List Nat) (h : ∀ b ∈ fb, b < 256) (p : Nat) :
    fb.getD p 0 < 256 := by
  rw [List.getD_eq_getElem?_getD]
  by_cases hp : p < fb.length
  · rw [List.getElem?_eq_getElem hp]
    exact h _ (List.getElem_mem hp)
  · rw [List.getElem?_eq_none (by omega)]
    norm_num

theorem map_range_getD {α : Type} [Inhabited α] (g : Nat → α) (m j : Nat) (d : α) :
    ((List.range m).map g).getD j d = if j < m then g j else d := by
  rw [List.getD_eq_getElem?_getD]
  by_cases hj : j < m
  · rw [List.getElem?_map, List.getElem?_range hj, if_pos hj]
    rfl
  · rw [List.getElem?_eq_none (by rw [List.length_map, List.length_range]; omega),
      if_neg hj]
    rfl

/-- Closed form of the little-endian extraction: collect the spanned bytes
    in reversed significance order, then shift and mask. -/
theorem busvalue_little (fb : List Nat) (n start : Nat) (h1 : 1 ≤ n)
    (hstop : start + n - 1 < 64) (hfb : ∀ b ∈ fb, b < 256) :
    get_busvalue_from_bytes fb .little n start =
      (valLE ((List.range ((start + n - 1) / 8 - start / 8 + 1)).map
        (fun i => fb.getD (start / 8 + i) 0)) >>> (start % 8)) &&&
        ((1 <<< n) - 1) := by
  have hstart : start < 64 := by omega
  have hb0be : start / 8 ≤ (start + n - 1) / 8 := by omega
  have hbe7 : (start + n - 1) / 8 ≤ 7 := by omega
  simp only [get_busvalue_from_bytes, MAX_NUMBER_OF_CAN_DATA_BYTES, BITS_PER_BYTE]
  set b0 := start / 8 with hb0def
  set be := (start + n - 1) / 8 with hbedef
  set nb := be - b0 + 1 with hnbdef
  set resh := (List.range nb).foldl
    (fun acc i => acc.set (8 - 1 - i) (fb.getD (b0 + i) 0))
    (List.replicate 8 0) with hreshdef
  have hreshlen : resh.length = 8 := by
    rw [hreshdef, foldl_set_length, List.length_replicate]
  have hchar : ∀ p, p < 8 → resh.getD p 0 =
      if 8 - nb ≤ p then fb.getD (b0 + (7 - p)) 0 else 0 := by
    intro p hp
    by_cases hhit : 8 - nb ≤ p
    · rw [if_pos hhit]
      have hi : 7 - p < nb := by omega
      have := foldl_set_getD_hit (0:Nat) (fun i => fb.getD (b0 + i) 0)
        (fun i => 8 - 1 - i) nb (List.replicate 8 0) (7 - p) hi
        (fun a b ha hb hab => by
          simp only [] at hab
          omega)
        (fun a ha => by
          show 8 - 1 - a < (List.replicate 8 (0:Nat)).length
          rw [List.length_replicate]
          omega)
      simp only [] at this
      rw [show 8 - 1 - (7 - p) = p from by omega] at this
      rw [hreshdef, this]
    · rw [if_neg hhit]
      have := foldl_set_getD_miss (0:Nat) (fun i => fb.getD (b0 + i) 0)
        (fun i => 8 - 1 - i) nb (List.replicate 8 0) p (fun i hilt => by
          show 8 - 1 - i ≠ p
          omega)
      simp only [] at this
      rw [hreshdef, this, getD_replicate_zero]
  have hentries : ∀ b ∈ resh, b < 256 := by
    apply entries_of_getD
    intro p hp
    rw [hreshlen] at hp
    rw [hchar p hp]
    split
    · exact getD_lt_256 fb hfb _
    · norm_num
  have htentries : ∀ b ∈ (List.range nb).map (fun i => fb.getD (b0 + i) 0),
      b < 256 := by
    intro b hb
    obtain ⟨i, _, hi⟩ := List.mem_map.mp hb
    rw [← hi]
    exact getD_lt_256 fb hfb _
  have hmain : can_bytes_to_int resh =
      valLE ((List.range nb).map (fun i => fb.getD (b0 + i) 0)) := by
    apply digit_ext
    · exact canInt_lt resh (by omega) hentries
    · calc valLE _ < 256 ^ ((List.range nb).map (fun i => fb.getD (b0 + i) 0)).length :=
            valLE_lt _ htentries
        _ ≤ 256 ^ 8 := by
            rw [List.length_map, List.length_range]
            exact Nat.pow_le_pow_right (by norm_num) (by omega)
    · intro j hj
      rw [canInt_digit resh (by omega) hentries j, if_pos hj]
      rw [valLE_digit _ htentries j]
      rw [hchar (7 - j) (by omega)]
      rw [map_range_getD]
      by_cases hjnb : j < nb
      · rw [if_pos (by omega : 8 - nb ≤ 7 - j), if_pos hjnb]
        rw [show 7 - (7 - j) = j from by omega]
      · rw [if_neg (by omega), if_neg hjnb]
  rw [hmain]

/-- Round trip for a little-endian field: inserting a value below 2^n and
    extracting it from the stored bytes gives the value back, provided the
    frame keeps at least minimum_dlc bytes. -/
theorem roundtrip_little (v n start L : Nat) (h1 : 1 ≤ n)
    (hstop : start + n - 1 < 64) (hv : v < 2 ^ n)
    (hL : (start + n - 1) / 8 + 1 ≤ L) (hL8 : L ≤ 8) :
    get_busvalue_from_bytes
      (int_to_can_bytes L (get_shiftedvalue_from_busvalue v .little n start))
      .little n start = v := by
  have hstart : start < 64 := by omega
  have hb0be : start / 8 ≤ (start + n - 1) / 8 := by omega
  have hbe7 : (start + n - 1) / 8 ≤ 7 := by omega
  have hkn : start % 8 + n ≤ 8 * ((start + n - 1) / 8 - start / 8 + 1) := by omega
  have hw : v <<< (start % 8) < 2 ^ (8 * ((start + n - 1) / 8 - start / 8 + 1)) := by
    rw [Nat.shiftLeft_eq]
    calc v * 2 ^ (start % 8) < 2 ^ n * 2 ^ (start % 8) :=
          (Nat.mul_lt_mul_right (by positivity : (0:ℕ) < 2 ^ (start % 8))).mpr hv
      _ = 2 ^ (n + start % 8) := by rw [pow_add]
      _ ≤ _ := Nat.pow_le_pow_right (by norm_num) (by omega)
  set b0 := start / 8 with hb0def
  set be := (start + n - 1) / 8 with hbedef
  set nb := be - b0 + 1 with hnbdef
  set w := v <<< (start % 8) with hwdef
  set X := get_shiftedvalue_from_busvalue v .little n start with hXdef
  have hXval : X = valLE (List.replicate (7 - be) 0 ++ (digitsLE nb w).reverse) :=
    shiftedvalue_little v n start h1 hstop hv
  have htentries : ∀ b ∈ List.replicate (7 - be) (0:Nat) ++ (digitsLE nb w).reverse,
      b < 256 := by
    intro b hb
    rcases List.mem_append.mp hb with h | h
    · rw [List.eq_of_mem_replicate h]
      norm_num
    · exact digitsLE_entries nb w b (List.mem_reverse.mp h)
  have hX64 : X < 2 ^ 64 := by
    rw [hXval]
    calc valLE _ < 256 ^ (List.replicate (7 - be) (0:Nat) ++
          (digitsLE nb w).reverse).length := valLE_lt _ htentries
      _ ≤ 256 ^ 8 := by
          rw [List.length_append, List.length_replicate, List.length_reverse,
            digitsLE_length]
          exact Nat.pow_le_pow_right (by norm_num) (by omega)
      _ = 2 ^ 64 := by norm_num
  rw [busvalue_little _ n start h1 hstop (int_to_can_bytes_entries L X)]
  have hbytes : ∀ i, i < nb →
      (int_to_can_bytes L X).getD (b0 + i) 0 = w / 256 ^ i % 256 := by
    intro i hi
    rw [int_to_can_bytes_getD L X (b0 + i) (by omega) hL8]
    rw [hXval, valLE_digit _ htentries]
    rw [List.getD_eq_getElem?_getD,
      List.getElem?_append_right (by simp only [List.length_replicate]; omega)]
    simp only [List.length_replicate]
    rw [← List.getD_eq_getElem?_getD]
    rw [getD_reverse _ _ (by rw [digitsLE_length]; omega)]
    rw [digitsLE_length]
    rw [digitsLE_getD nb w _ (by omega)]
    rw [show nb - 1 - (7 - (b0 + i) - (7 - be)) = i from by omega]
  have hmaps : (List.range nb).map (fun i => (int_to_can_bytes L X).getD (b0 + i) 0) =
      digitsLE nb w := by
    rw [digitsLE]
    apply List.map_congr_left
    intro i hi
    exact hbytes i (List.mem_range.mp hi)
  rw [hmaps, valLE_digitsLE,
    show (256:ℕ) ^ nb = 2 ^ (8 * nb) from by
      rw [show (256:ℕ) = 2 ^ 8 from by norm_num, ← pow_mul],
    Nat.mod_eq_of_lt hw]
  rw [hwdef, Nat.shiftLeft_eq, Nat.shiftRight_eq_div_pow,
    Nat.mul_div_cancel _ (by positivity : (0:ℕ) < 2 ^ (start % 8))]
  rw [Nat.one_shiftLeft]
  exact Nat.and_pow_two_sub_one_of_lt_two_pow hv

/-- Round trip for a big-endian field. -/
theorem roundtrip_big (v n start L : Nat) (_h1 : 1 ≤ n) (hstart : start < 64)
    (hstop : calculate_backward_bitnumber start + n - 1 < 64) (hv : v < 2 ^ n)
    (hL : start / 8 + 1 ≤ L) (hL8 : L ≤ 8) :
    get_busvalue_from_bytes
      (int_to_can_bytes L (get_shiftedvalue_from_busvalue v .big n start))
      .big n start = v := by
  have hs := backward_eq start hstart
  set s := calculate_backward_bitnumber start with hsdef
  have hsn : s + n ≤ 64 := by omega
  have hX64 : v <<< s < 2 ^ 64 := by
    rw [Nat.shiftLeft_eq]
    calc v * 2 ^ s < 2 ^ n * 2 ^ s :=
          (Nat.mul_lt_mul_right (by positivity : (0:ℕ) < 2 ^ s)).mpr hv
      _ = 2 ^ (n + s) := by rw [pow_add]
      _ ≤ 2 ^ 64 := Nat.pow_le_pow_right (by norm_num) (by omega)
  have hdvd : 2 ^ (8 * (8 - L)) ∣ v <<< s := by
    rw [Nat.shiftLeft_eq]
    exact Dvd.dvd.mul_left (pow_dvd_pow 2 (by omega)) v
  simp only [get_shiftedvalue_from_busvalue, get_busvalue_from_bytes, ← hsdef]
  rw [canInt_int_to_can_bytes L (v <<< s) hL8 hX64]
  have h2568 : (256:ℕ) ^ (8 - L) = 2 ^ (8 * (8 - L)) := by
    rw [show (256:ℕ) = 2 ^ 8 from by norm_num, ← pow_mul]
  rw [h2568, Nat.div_mul_cancel hdvd]
  rw [Nat.shiftLeft_eq, Nat.shiftRight_eq_div_pow,
    Nat.mul_div_cancel _ (by positivity : (0:ℕ) < 2 ^ s)]
  rw [Nat.one_shiftLeft]
  exact Nat.and_pow_two_sub_one_of_lt_two_pow hv

theorem fl_zero : fl 0 = 0 := by
  rw [fl, flp, if_pos rfl]

theorem fmul_one_fix (x : ℚ) (h : fl x = x) : fmul x 1 = x := by
  rw [fmul, mul_one, h]

theorem fadd_zero_fix (x : ℚ) (h : fl x = x) : fadd x 0 = x := by
  rw [fadd, add_zero, h]

theorem fsub_zero_fix (x : ℚ) (h : fl x = x) : fsub x 0 = x := by
  rw [fsub, sub_zero, h]

theorem fdiv_one_fix (x : ℚ) (h : fl x = x) : fdiv x 1 = x := by
  rw [fdiv, div_one, h]

theorem min_possible_unsigned (s : CanSignalDefinition)
    (ht : s.signaltype = .unsigned) (hscale : s.scalingfactor = 1)
    (hoff : s.valueoffset = 0) : get_minimum_possible_value s = 0 := by
  simp only [get_minimum_possible_value, ht, hscale, hoff]
  rw [fmul_one_fix 0 fl_zero, fadd_zero_fix 0 fl_zero]

theorem max_possible_unsigned (s : CanSignalDefinition)
    (ht : s.signaltype = .unsigned) (hscale : s.scalingfactor = 1)
    (hoff : s.valueoffset = 0) (hbits : s.numberofbits ≤ 53) :
    get_maximum_possible_value s = (2:ℚ) ^ s.numberofbits - 1 := by
  simp only [get_maximum_possible_value, ht, hscale, hoff]
  have hcast : (2:ℚ) ^ s.numberofbits - 1 = (((2 ^ s.numberofbits - 1 : ℤ)) : ℚ) := by
    push_cast
    ring
  have hfix : fl ((2:ℚ) ^ s.numberofbits - 1) = (2:ℚ) ^ s.numberofbits - 1 := by
    rw [hcast]
    apply fl_intCast
    have hA : (0:ℤ) < 2 ^ s.numberofbits := by positivity
    have hle : (2:ℤ) ^ s.numberofbits ≤ 2 ^ 53 := pow_le_pow_right₀ (by norm_num) hbits
    have hcast : (((2:ℕ) ^ 53 : ℕ) : ℤ) = (2:ℤ) ^ 53 := by push_cast
    omega
  rw [hfix, fmul_one_fix _ hfix, fadd_zero_fix _ hfix]

theorem min_possible_signed (s : CanSignalDefinition)
    (ht : s.signaltype = .signed) (hscale : s.scalingfactor = 1)
    (hoff : s.valueoffset = 0) (hbits : s.numberofbits ≤ 53) :
    get_minimum_possible_value s = -((2:ℚ) ^ (s.numberofbits - 1)) := by
  simp only [get_minimum_possible_value, ht, hscale, hoff]
  have hcast : -((2:ℚ) ^ (s.numberofbits - 1)) = (((-(2 ^ (s.numberofbits - 1)) : ℤ)) : ℚ) := by
    push_cast
    ring
  have hfix : fl (-((2:ℚ) ^ (s.numberofbits - 1))) = -((2:ℚ) ^ (s.numberofbits - 1)) := by
    rw [hcast]
    apply fl_intCast
    have hA : (0:ℤ) < 2 ^ (s.numberofbits - 1) := by positivity
    have hle : (2:ℤ) ^ (s.numberofbits - 1) ≤ 2 ^ 53 :=
      pow_le_pow_right₀ (by norm_num) (by omega)
    have hcast : (((2:ℕ) ^ 53 : ℕ) : ℤ) = (2:ℤ) ^ 53 := by push_cast
    omega
  rw [hfix, fmul_one_fix _ hfix, fadd_zero_fix _ hfix]

theorem max_possible_signed (s : CanSignalDefinition)
    (ht : s.signaltype = .signed) (hscale : s.scalingfactor = 1)
    (hoff : s.valueoffset = 0) (hbits : s.numberofbits ≤ 53) :
    get_maximum_possible_value s = (2:ℚ) ^ (s.numberofbits - 1) - 1 := by
  simp only [get_maximum_possible_value, ht, hscale, hoff]
  have hcast : (2:ℚ) ^ (s.numberofbits - 1) - 1 =
      (((2 ^ (s.numberofbits - 1) - 1 : ℤ)) : ℚ) := by
    push_cast
    ring
  have hfix : fl ((2:ℚ) ^ (s.numberofbits - 1) - 1) = (2:ℚ) ^ (s.numberofbits - 1) - 1 := by
    rw [hcast]
    apply fl_intCast
    have hA : (0:ℤ) < 2 ^ (s.numberofbits - 1) := by positivity
    have hle : (2:ℤ) ^ (s.numberofbits - 1) ≤ 2 ^ 53 :=
      pow_le_pow_right₀ (by norm_num) (by omega)
    have hcast : (((2:ℕ) ^ 53 : ℕ) : ℤ) = (2:ℤ) ^ 53 := by push_cast
    omega
  rw [hfix, fmul_one_fix _ hfix, fadd_zero_fix _ hfix]

theorem canInt_zero_entries (bs : List Nat) (h : ∀ b ∈ bs, b = 0) :
    can_bytes_to_int bs = 0 := by
  rw [can_bytes_to_int_eq_valLE]
  apply valLE_zero_entries
  intro b hb
  rw [List.mem_reverse] at hb
  rcases List.mem_append.mp hb with h1 | h1
  · exact h b h1
  · exact List.eq_of_mem_replicate h1

/-- Binding an ok value with the >>= operator reduces to an application. -/
theorem ok_bind {ε α β : Type} (a : α) (f : α → Except ε β) :
    (Except.ok a : Except ε α) >>= f = f a := rfl

/-- Binding an ok value with Except.bind reduces to an application. -/
theorem bindE_ok {ε α β : Type} (a : α) (f : α → Except ε β) :
    Except.bind (Except.ok a : Except ε α) f = f a := rfl

/-- Mapping a function over an ok value reduces to an application. -/
theorem mapE_ok {ε α β : Type} (f : α → β) (a : α) :
    Except.map f (Except.ok a : Except ε α) = .ok (f a) := rfl

/-- Binding an error value with the >>= operator keeps the error. -/
theorem error_bind {ε α β : Type} (e : ε) (g : α → Except ε β) :
    (Except.error e : Except ε α) >>= g = .error e := rfl

/-- Mapping a function over an error value keeps the error. -/
theorem mapE_error {ε α β : Type} (g : α → β) (e : ε) :
    Except.map g (Except.error e : Except ε α) = .error e := rfl

/-- The dict-building foldlM of unpack, over signals with distinct names and
    an accumulator whose keys avoid them, appends one (name, value) entry per
    signal as produced by decode_signals_spec. -/
theorem foldlM_dictInsert (f : CanFrame) (sigs : List CanSignalDefinition)
    (acc : List (String × ℚ))
    (hdisj : ∀ sd ∈ sigs, ∀ p ∈ acc, p.1 ≠ sd.signalname)
    (hnodup : (sigs.map (fun sd => sd.signalname)).Nodup) :
    sigs.foldlM (fun outputdict sigdef => do
        let val ← get_signalvalue sigdef f
        .ok (dictInsert outputdict sigdef.signalname val)) acc
      = (decode_signals_spec f sigs).map (fun l => acc ++ l) := by
  induction sigs generalizing acc with
  | nil =>
    simp only [List.foldlM_nil, decode_signals_spec, mapE_ok, List.append_nil]
    rfl
  | cons sd rest ih =>
    have hnd : (∀ x ∈ rest, ¬ x.signalname = sd.signalname) ∧
        (rest.map (fun sd => sd.signalname)).Nodup := by
      simpa using hnodup
    rw [List.foldlM_cons]
    cases hg : get_signalvalue sd f with
    | error e =>
      simp only [decode_signals_spec, hg, error_bind, mapE_error]
    | ok val =>
      simp only [decode_signals_spec, hg, ok_bind]
      have hany : acc.any (fun p => p.1 = sd.signalname) = false := by
        rw [List.any_eq_false]
        intro p hp
        simpa using hdisj sd (List.mem_cons_self sd rest) p hp
      rw [show dictInsert acc sd.signalname val = acc ++ [(sd.signalname, val)] from by
        rw [dictInsert, if_neg (by rw [hany]; exact Bool.false_ne_true)]]
      rw [ih (acc ++ [(sd.signalname, val)]) ?hd hnd.2]
      case hd =>
        intro sd2 h2 p hp
        rcases List.mem_append.mp hp with h | h
        · exact hdisj sd2 (List.mem_cons_of_mem sd h2) p h
        · have hps : p = (sd.signalname, val) := by simpa using h
          rw [hps]
          intro hc
          exact hnd.1 sd2 h2 (by simpa using hc.symm)
      cases hrest : decode_signals_spec f rest with
      | error e => simp only [hrest, error_bind, mapE_error]
      | ok tail =>
        simp only [hrest, ok_bind, mapE_ok, List.append_assoc, List.singleton_append]

/-- Round trip through the twos-complement helpers of utilities.py: a value in
    the signed range of n bits is encoded by twos_complement to a bus value
    below 2 to the n, and from_twos_complement restores it. -/
theorem twos_roundtrip (v : ℤ) (n : Nat) (hn : 1 ≤ n)
    (hlo : -(2:ℤ) ^ (n - 1) ≤ v) (hhi : v ≤ 2 ^ (n - 1) - 1) :
    ∃ b : Nat, twos_complement v n = .ok b ∧ b < 2 ^ n ∧
      from_twos_complement b n = .ok v := by
  have hsplit : (2:ℤ) ^ n = 2 ^ (n - 1) * 2 := by
    rw [← pow_succ]
    congr 1
    omega
  have hsplitN : (2:ℕ) ^ n = 2 ^ (n - 1) * 2 := by
    rw [← pow_succ]
    congr 1
    omega
  have hZN : (((2:ℕ) ^ n : ℕ) : ℤ) = (2:ℤ) ^ n := by push_cast; ring
  have hZN1 : (((2:ℕ) ^ (n - 1) : ℕ) : ℤ) = (2:ℤ) ^ (n - 1) := by push_cast; ring
  rcases le_or_lt 0 v with h0 | h0
  · refine ⟨v.toNat, ?_, by omega, ?_⟩
    · simp only [twos_complement]
      rw [if_neg (by omega), if_pos (by omega)]
    · simp only [from_twos_complement]
      rw [if_neg (by omega), if_pos (by omega)]
      congr 1
      omega
  · refine ⟨(v + 2 ^ n).toNat, ?_, by omega, ?_⟩
    · simp only [twos_complement]
      rw [if_neg (by omega), if_neg (by omega)]
    · simp only [from_twos_complement]
      rw [if_neg (by omega), if_neg (by omega)]
      congr 1
      omega

/-- Round trip through the byte shuffles for a signal placement that passes
    the validity checks, in either endianness: writing the shifted bus value
    into dlc bytes and extracting it again restores the bus value. -/
theorem busvalue_roundtrip (s : CanSignalDefinition) (L V : Nat)
    (hvp : ValidPlacement s) (hdlc : get_minimum_dlc s ≤ L) (hL8 : L ≤ 8)
    (hV : V < 2 ^ s.numberofbits) :
    get_busvalue_from_bytes
      (int_to_can_bytes L (get_shiftedvalue_from_busvalue V s.endianness
        s.numberofbits s.startbit)) s.endianness s.numberofbits s.startbit = V := by
  obtain ⟨hn1, hstart, hplace, _, _⟩ := hvp
  cases he : s.endianness with
  | little =>
    rw [he] at hplace
    have hplaceL : s.startbit + s.numberofbits - 1 < 64 := by
      simpa [BITS_IN_FULL_DATA] using hplace
    have hdlcL : (s.startbit + s.numberofbits - 1) / 8 + 1 ≤ L := by
      simp only [get_minimum_dlc, he, BITS_PER_BYTE] at hdlc
      exact hdlc
    exact roundtrip_little V s.numberofbits s.startbit L hn1 hplaceL hV hdlcL hL8
  | big =>
    rw [he] at hplace
    have hplaceB : calculate_backward_bitnumber s.startbit + s.numberofbits - 1 < 64 := by
      simpa [BITS_IN_FULL_DATA] using hplace
    have hdlcB : s.startbit / 8 + 1 ≤ L := by
      simp only [get_minimum_dlc, he, BITS_PER_BYTE] at hdlc
      exact hdlc
    exact roundtrip_big V s.numberofbits s.startbit L hn1
      (by simpa [BITS_IN_FULL_DATA] using hstart) hplaceB hV hdlcB hL8

/-- Claim C1: the claim states that the first send_signals call for a frame
    in status periodic-not-yet-started emits exactly one control message,
    a TX_SETUP with SETTIMER and STARTTIMER and the configured interval, and
    no one-shot TX_SEND.  The code emits the TX_SETUP and then ALSO a
    TX_SEND: the second status test in canbus.py reads the stale local
    variable, so the else branch (commented as non-periodic transmission)
    runs as well.  This theorem evaluates the embedded dispatch at a frame
    with cycletime 20 ms: the first call yields two messages, TX_SETUP
    (opcode 1, flags SETTIMER|STARTTIMER = 3, ival2 = 0 s 20000 us) followed
    by TX_SEND (opcode 4), and moves the stored status to periodic; each
    later call in status periodic yields exactly one TX_SETUP with flags 0.
    The subsequent-call half of the claim holds; the first-call half is
    contradicted by the emitted TX_SEND. -/
theorem claim_c1_first_send_emits_txsetup_and_txsend :
    send_signals_transmit_frame STATUS_PERIODIC_NOT_YET_STARTED (some 20) c1_frame =
      .ok ([⟨⟨CAN_BCM_TX_SETUP, BCM_FLAG_SETTIMER ||| BCM_FLAG_STARTTIMER, 0, 0, 0, 0,
              20000, 7, 1⟩, get_rawframe c1_frame⟩,
            ⟨⟨CAN_BCM_TX_SEND, 0, 0, 0, 0, 0, 0, 7, 1⟩, get_rawframe c1_frame⟩],
           STATUS_PERIODIC) ∧
    send_signals_transmit_frame STATUS_PERIODIC (some 20) c1_frame =
      .ok ([⟨⟨CAN_BCM_TX_SETUP, 0, 0, 0, 0, 0, 0, 7, 1⟩, get_rawframe c1_frame⟩],
           STATUS_PERIODIC) := by
  constructor <;> decide

/-- Claim C2, counterexample: for the 64-bit unsigned signal with scale 1
    and offset 0, the physical value 2^53 + 1 lies inside
    [min_possible, max_possible] and the frame has the minimum dlc, yet
    encoding it into an all-zero payload and decoding yields 2^53, not
    2^53 + 1: the claim promises an exact round trip for unsigned signals
    with scale 1 and offset 0, but the float conversion inside the codec
    loses integers above 2^53. -/
theorem claim_c2_counterexample :
    c2_sig64.signaltype = .unsigned ∧ c2_sig64.scalingfactor = 1 ∧
    c2_sig64.valueoffset = 0 ∧ get_minimum_dlc c2_sig64 = 8 ∧
    get_minimum_possible_value c2_sig64 ≤ (2:ℚ)^53 + 1 ∧
    (2:ℚ)^53 + 1 ≤ get_maximum_possible_value c2_sig64 ∧
    (set_signalvalue c2_sig64 c2_zero_frame (some ((2:ℚ)^53 + 1))).bind
      (get_signalvalue c2_sig64) = .ok ((2:ℚ)^53) ∧
    ((2:ℚ)^53) ≠ (2:ℚ)^53 + 1 := by
  refine ⟨rfl, by decide, by decide, by decide, by decide, by decide, by decide, by decide⟩

/-- Claim C2 (amended): the round trip is exact for the unsigned and signed
    integer signal types with scale 1 and offset 0, no min or max clamp, and
    at most 53 bits (the region where the double conversions inside the
    codec are exact; the counterexample shows a 64-bit unsigned signal loses
    2^53 + 1).  For every such signal definition, every integer physical
    value between the minimum and maximum possible values, and every
    all-zero payload of at least the minimum dlc, set_signalvalue followed
    by get_signalvalue returns exactly the value. -/
theorem claim_c2_roundtrip_integer_signals (s : CanSignalDefinition) (f : CanFrame)
    (L : Nat) (v : ℤ)
    (ht : s.signaltype = SignalType.unsigned ∨ s.signaltype = SignalType.signed)
    (hscale : s.scalingfactor = 1) (hoff : s.valueoffset = 0)
    (hmin : s.minvalue = none) (hmax : s.maxvalue = none)
    (hvp : ValidPlacement s) (hbits : s.numberofbits ≤ 53)
    (hdata : f.frame_data = List.replicate L 0)
    (hdlc : get_minimum_dlc s ≤ L) (hL8 : L ≤ 8)
    (hlo : get_minimum_possible_value s ≤ (v:ℚ))
    (hhi : (v:ℚ) ≤ get_maximum_possible_value s) :
    (set_signalvalue s f (some (v:ℚ))).bind (get_signalvalue s) = .ok ((v:ℚ)) := by
  have hn1 : 1 ≤ s.numberofbits := hvp.1
  have hlen : f.frame_data.length = L := by rw [hdata, List.length_replicate]
  have hcond1 : ¬ (get_minimum_dlc s > f.frame_data.length) := by omega
  have hcond2 : ¬ ((v:ℚ) < get_minimum_possible_value s ∨
      (v:ℚ) > get_maximum_possible_value s) := by
    push_neg
    exact ⟨hlo, hhi⟩
  have hZN : (((2:ℕ) ^ s.numberofbits : ℕ) : ℤ) = (2:ℤ) ^ s.numberofbits := by
    push_cast
    ring
  have h53 : (((2:ℕ) ^ 53 : ℕ) : ℤ) = (2:ℤ) ^ 53 := by push_cast
  have hle53 : (2:ℤ) ^ s.numberofbits ≤ 2 ^ 53 := pow_le_pow_right₀ (by norm_num) hbits
  rcases ht with htu | hts
  · have hmin0 : get_minimum_possible_value s = 0 := min_possible_unsigned s htu hscale hoff
    have hmaxv : get_maximum_possible_value s = (2:ℚ) ^ s.numberofbits - 1 :=
      max_possible_unsigned s htu hscale hoff hbits
    have hv0 : 0 ≤ v := by
      rw [hmin0] at hlo
      exact_mod_cast hlo
    have hvle : v ≤ 2 ^ s.numberofbits - 1 := by
      rw [hmaxv] at hhi
      exact_mod_cast hhi
    have habs : v.natAbs ≤ 2 ^ 53 := by omega
    have hfl : fl ((v:ℤ) : ℚ) = ((v:ℤ) : ℚ) := fl_intCast v habs
    have hVlt : v.toNat < 2 ^ s.numberofbits := by omega
    have hset : set_signalvalue s f (some ((v:ℤ):ℚ)) =
        .ok { f with
              frame_data := int_to_can_bytes L
                (get_shiftedvalue_from_busvalue v.toNat s.endianness
                  s.numberofbits s.startbit) } := by
      simp only [set_signalvalue, htu, hscale, hoff, hmin, hmax]
      rw [if_neg hcond1, if_neg hcond2]
      simp only [hfl]
      rw [fsub_zero_fix _ hfl, fdiv_one_fix _ hfl, truncQ_intCast, ok_bind]
      rw [if_neg (show ¬ (v > 2 ^ s.numberofbits - 1) by omega)]
      rw [if_neg (show ¬ (v < 0) by omega)]
      rw [hdata, canInt_replicate_zero]
      simp only [Nat.zero_and, Nat.zero_or, List.length_replicate]
    rw [hset, bindE_ok]
    have hVQ : ((v.toNat : ℕ) : ℚ) = ((v : ℤ) : ℚ) := by
      exact_mod_cast Int.toNat_of_nonneg hv0
    simp only [get_signalvalue, htu, hscale, hoff, hmin, hmax]
    rw [busvalue_roundtrip s L v.toNat hvp hdlc hL8 hVlt]
    rw [hVQ, ok_bind, hfl, fmul_one_fix _ hfl, fadd_zero_fix _ hfl]
  · have hminv : get_minimum_possible_value s = -((2:ℚ) ^ (s.numberofbits - 1)) :=
      min_possible_signed s hts hscale hoff hbits
    have hmaxv : get_maximum_possible_value s = (2:ℚ) ^ (s.numberofbits - 1) - 1 :=
      max_possible_signed s hts hscale hoff hbits
    have hvlo : -(2:ℤ) ^ (s.numberofbits - 1) ≤ v := by
      rw [hminv] at hlo
      exact_mod_cast hlo
    have hvhi : v ≤ 2 ^ (s.numberofbits - 1) - 1 := by
      rw [hmaxv] at hhi
      exact_mod_cast hhi
    have hZN1 : (((2:ℕ) ^ (s.numberofbits - 1) : ℕ) : ℤ) =
        (2:ℤ) ^ (s.numberofbits - 1) := by
      push_cast
      ring
    have hsplit : (2:ℤ) ^ s.numberofbits = 2 ^ (s.numberofbits - 1) * 2 := by
      rw [← pow_succ]
      congr 1
      omega
    have habs : v.natAbs ≤ 2 ^ 53 := by
      have hle53a : (2:ℤ) ^ (s.numberofbits - 1) ≤ 2 ^ 53 :=
        pow_le_pow_right₀ (by norm_num) (by omega)
      omega
    have hfl : fl ((v:ℤ) : ℚ) = ((v:ℤ) : ℚ) := fl_intCast v habs
    obtain ⟨b, htc, hblt, hft⟩ := twos_roundtrip v s.numberofbits hn1 hvlo hvhi
    have hset : set_signalvalue s f (some ((v:ℤ):ℚ)) =
        .ok { f with
              frame_data := int_to_can_bytes L
                (get_shiftedvalue_from_busvalue b s.endianness
                  s.numberofbits s.startbit) } := by
      simp only [set_signalvalue, hts, hscale, hoff, hmin, hmax]
      rw [if_neg hcond1, if_neg hcond2]
      simp only [hfl]
      rw [fsub_zero_fix _ hfl, fdiv_one_fix _ hfl, truncQ_intCast, htc, ok_bind,
        ok_bind]
      rw [if_neg (show ¬ ((b:ℤ) > 2 ^ s.numberofbits - 1) by omega)]
      rw [if_neg (show ¬ ((b:ℤ) < 0) by omega)]
      rw [hdata, canInt_replicate_zero]
      simp only [Nat.zero_and, Nat.zero_or, List.length_replicate, Int.toNat_natCast]
    rw [hset, bindE_ok]
    simp only [get_signalvalue, hts, hscale, hoff, hmin, hmax]
    rw [busvalue_roundtrip s L b hvp hdlc hL8 hblt, hft, ok_bind, ok_bind]
    rw [hfl, fmul_one_fix _ hfl, fadd_zero_fix _ hfl]

/-- Witness for the amended C2 theorem: a 12-bit signed little-endian signal
    at startbit 8 in a 3-byte zero payload round-trips the value -1000. -/
theorem claim_c2_roundtrip_integer_signals_witness :
    (set_signalvalue
        { signalname := "s1", startbit := 8, numberofbits := 12,
          signaltype := SignalType.signed }
        { frame_id := 1, frame_data := List.replicate 3 0 }
        (some ((-1000 : ℤ) : ℚ))).bind
      (get_signalvalue
        { signalname := "s1", startbit := 8, numberofbits := 12,
          signaltype := SignalType.signed }) = .ok (((-1000 : ℤ) : ℚ)) :=
  claim_c2_roundtrip_integer_signals
    { signalname := "s1", startbit := 8, numberofbits := 12,
      signaltype := SignalType.signed }
    { frame_id := 1, frame_data := List.replicate 3 0 } 3 (-1000)
    (Or.inr rfl) rfl rfl rfl rfl (by decide) (by norm_num) rfl (by decide)
    (by norm_num) (by decide) (by decide)

/-- Claim C3, counterexample: the claim says the BCM microseconds field is
    round((ms/1000 - seconds) * 1e6) for every nonnegative ms.  At
    ms = 1001 the code (which truncates the double-precision product with
    int()) produces ival2 = (1 s, 999 us), while the claimed formula gives
    (1 s, 1000 us). -/
theorem claim_c3_counterexample :
    (build_bcm_header CAN_BCM_TX_SETUP 3 1001 7 .standard 1).map
      (fun h => (h.ival2_seconds, h.ival2_useconds)) = .ok (1, 999) ∧
    (⌊(1001:ℚ)/1000⌋ = 1) ∧
    round (((1001:ℚ)/1000 - 1) * 1000000) = 1000 ∧
    ((999:ℤ) ≠ 1000) := by
  refine ⟨by decide, by decide, ?_, by decide⟩
  norm_num [round_eq]

/-- Claim C3 (amended): for every interval of ms milliseconds whose
    double-precision quotient ms/1000 is nonnegative, the BCM header carries
    ival2_seconds = floor(fl(ms/1000)) and ival2_useconds equal to the
    int() truncation of the once-rounded product
    (fl(ms/1000) - seconds) * 1e6 computed in double precision.  At 20 ms
    and at 29 ms this equals the rounding formula of the claim, (0, 20000)
    and (0, 29000); the counterexample at 1001 ms shows the truncation and
    the claimed round differ in general. -/
theorem claim_c3_interval_encoding (opcode flags : Nat) (interval : ℚ)
    (frame_id : Nat) (fmt : FrameFormat) (k : Nat)
    (h0 : 0 ≤ fdiv interval 1000) :
    ((build_bcm_header opcode flags interval frame_id fmt k).map
      (fun h => (h.ival2_seconds, h.ival2_useconds)) =
      .ok (⌊fdiv interval 1000⌋,
        truncQ (fmul (fsub (fdiv interval 1000) (fl (⌊fdiv interval 1000⌋ : ℚ)))
          (fl 1000000)))) ∧
    ((build_bcm_header CAN_BCM_TX_SETUP 3 20 7 .standard 1).map
      (fun h => (h.ival2_seconds, h.ival2_useconds)) = .ok (0, 20000)) ∧
    ((build_bcm_header CAN_BCM_TX_SETUP 3 29 7 .standard 1).map
      (fun h => (h.ival2_seconds, h.ival2_useconds)) = .ok (0, 29000)) ∧
    round (((20:ℚ)/1000 - 0) * 1000000) = 20000 ∧
    round (((29:ℚ)/1000 - 0) * 1000000) = 29000 := by
  refine ⟨?_, by decide, by decide, by norm_num [round_eq], by norm_num [round_eq]⟩
  have hz : split_seconds_to_full_and_part 0 = .ok (0, 0) := by decide
  simp only [build_bcm_header, hz, ok_bind]
  simp only [split_seconds_to_full_and_part]
  rw [if_neg (not_lt.mpr h0), ok_bind, mapE_ok]

/-- Witness for the amended C3 theorem at the 20 ms interval of the spec
    scenario. -/
theorem claim_c3_interval_encoding_witness :
    (0:ℚ) ≤ fdiv 20 1000 ∧
    ((build_bcm_header 1 3 20 7 .standard 1).map
      (fun h => (h.ival2_seconds, h.ival2_useconds)) =
      .ok (⌊fdiv (20:ℚ) 1000⌋,
        truncQ (fmul (fsub (fdiv (20:ℚ) 1000) (fl (⌊fdiv (20:ℚ) 1000⌋ : ℚ)))
          (fl 1000000)))) :=
  ⟨by decide, (claim_c3_interval_encoding 1 3 20 7 .standard 1 (by decide)).1⟩

/-- Claim C6: unpack returns an empty dictionary when the frame id has no
    definition; it fails with the payload-length-mismatch error when the
    received data length differs from the dlc of the found definition; and
    otherwise (with distinct signal names) it returns one entry per signal
    of the definition, mapping each signal name to its decoded value. -/
theorem claim_c6_unpack_behaviour (f : CanFrame) (m : List (Nat × CanFrameDefinition)) :
    (m.find? (fun p => p.1 = f.frame_id) = none → unpack f m = .ok []) ∧
    (∀ i fd, m.find? (fun p => p.1 = f.frame_id) = some (i, fd) →
      f.frame_data.length ≠ fd.dlc → unpack f m = .error .wrongDlc) ∧
    (∀ i fd, m.find? (fun p => p.1 = f.frame_id) = some (i, fd) →
      f.frame_data.length = fd.dlc →
      (fd.signaldefinitions.map (fun sd => sd.signalname)).Nodup →
      unpack f m = decode_signals_spec f fd.signaldefinitions) := by
  refine ⟨?_, ?_, ?_⟩
  · intro hfind
    simp only [unpack, hfind]
  · intro i fd hfind hne
    simp only [unpack, hfind]
    rw [if_pos hne]
  · intro i fd hfind heq hnodup
    simp only [unpack, hfind]
    rw [if_neg (by omega)]
    rw [foldlM_dictInsert f fd.signaldefinitions [] (by intro sd h p hp; cases hp) hnodup]
    cases hdec : decode_signals_spec f fd.signaldefinitions with
    | error e => simp only [mapE_error]
    | ok l => simp only [mapE_ok, List.nil_append]

/-- Witness for C6: a two-signal frame definition at id 4 with dlc 2, a
    matching frame with bytes 1 and 2; unpack produces the decoded dict with
    one entry per signal. -/
theorem claim_c6_unpack_behaviour_witness :
    unpack { frame_id := 4, frame_data := [1, 2] }
        [(4, { frame_id := 4, dlc := 2,
               signaldefinitions :=
                 [ { signalname := "s1", startbit := 8, numberofbits := 8 },
                   { signalname := "s2", startbit := 0, numberofbits := 8 } ] })] =
      decode_signals_spec { frame_id := 4, frame_data := [1, 2] }
        [ { signalname := "s1", startbit := 8, numberofbits := 8 },
          { signalname := "s2", startbit := 0, numberofbits := 8 } ] ∧
    decode_signals_spec { frame_id := 4, frame_data := [1, 2] }
        [ { signalname := "s1", startbit := 8, numberofbits := 8 },
          { signalname := "s2", startbit := 0, numberofbits := 8 } ] =
      .ok [("s1", 2), ("s2", 1)] :=
  ⟨(claim_c6_unpack_behaviour { frame_id := 4, frame_data := [1, 2] }
      [(4, { frame_id := 4, dlc := 2,
             signaldefinitions :=
               [ { signalname := "s1", startbit := 8, numberofbits := 8 },
                 { signalname := "s2", startbit := 0, numberofbits := 8 } ] })]).2.2
    4 _ rfl rfl (by decide), by decide⟩

/-- Claim C8: for every CanFrame whose id is in range for its frame format
    and whose data is at most 8 bytes of byte values, serializing with
    get_rawframe and parsing back with from_rawframe returns exactly the
    frame (id, data and format). -/
theorem claim_c8_raw_roundtrip (f : CanFrame)
    (hid : f.frame_format = .standard → f.frame_id ≤ MAX_CAN_FRAME_ID_STANDARD)
    (hid2 : f.frame_format = .extended → f.frame_id ≤ MAX_CAN_FRAME_ID_EXTENDED)
    (hlen : f.frame_data.length ≤ 8) (hbytes : ∀ b ∈ f.frame_data, b < 256) :
    from_rawframe (get_rawframe f) = .ok f := by
  obtain ⟨fid, fdata, ffmt⟩ := f
  simp only at hid hid2 hlen hbytes
  have hfp : ∀ x : ℕ, x < 2 ^ 32 →
      x % 256 + 256 * (x / 256 % 256) + 256 ^ 2 * (x / 256 ^ 2 % 256) +
        256 ^ 3 * (x / 256 ^ 3 % 256) = x := by
    intro x hx
    have h32 : (2:ℕ) ^ 32 = 4294967296 := by norm_num
    omega
  cases ffmt with
  | standard =>
    have hid1 : fid ≤ 0x7ff := by
      simpa [MAX_CAN_FRAME_ID_STANDARD] using hid rfl
    have hne : (FrameFormat.standard = FrameFormat.extended) = False := by
      simp
    simp only [get_rawframe, le4, from_rawframe, hne, if_false]
    have h16 : ([fid % 256, fid / 256 % 256, fid / 256 ^ 2 % 256,
        fid / 256 ^ 3 % 256] ++ [fdata.length] ++ [0, 0, 0] ++ pad8 fdata).length
        = 16 := by
      simp [pad8_length fdata hlen]
    rw [if_neg (by simp only [h16]; omega)]
    simp only [List.cons_append, List.nil_append, List.getD_cons_zero,
      List.getD_cons_succ, List.drop_succ_cons, List.drop_zero]
    simp only [hfp fid (by omega)]
    rw [show List.take 8 (pad8 fdata) = pad8 fdata from by
      rw [show (8:ℕ) = (pad8 fdata).length from (pad8_length fdata hlen).symm,
        List.take_length]]
    rw [show List.take fdata.length (pad8 fdata) = fdata from by
      rw [pad8, List.take_left]]
    have hand : fid &&& CAN_MASK_EXTENDED_FRAME_BIT = 0 := by
      rw [show CAN_MASK_EXTENDED_FRAME_BIT = 2 ^ 31 from by
          norm_num [CAN_MASK_EXTENDED_FRAME_BIT],
        Nat.and_two_pow, Nat.testBit_lt_two_pow (by omega)]
      simp
    rw [if_neg (by simp [hand])]
    have hmask : fid &&& CAN_MASK_ID_ONLY = fid := by
      rw [show CAN_MASK_ID_ONLY = 2 ^ 29 - 1 from by norm_num [CAN_MASK_ID_ONLY],
        Nat.and_pow_two_sub_one_eq_mod, Nat.mod_eq_of_lt (by omega)]
    rw [hmask]
    simp only [mkCanFrame, check_frame_id_and_format, MAX_CAN_FRAME_ID_STANDARD,
      MAX_NUMBER_OF_CAN_DATA_BYTES]
    rw [if_neg (show ¬ (True ∧ fid > 2047) from by
      rintro ⟨-, h⟩
      omega)]
    rw [if_neg (show ¬ (FrameFormat.standard = FrameFormat.extended ∧ fid > MAX_CAN_FRAME_ID_EXTENDED) from by
      rintro ⟨h, -⟩
      exact FrameFormat.noConfusion h)]
    rw [ok_bind]
    rw [if_neg (show ¬ (fdata.length > 8 ∨ ¬ fdata.all (fun b => decide (b < 256)) = true) from by
      push_neg
      refine ⟨by omega, ?_⟩
      rw [List.all_eq_true]
      intro b hb
      simpa using hbytes b hb)]
  | extended =>
    have hid1 : fid ≤ 0x1FFFFFFF := by
      simpa [MAX_CAN_FRAME_ID_EXTENDED] using hid2 rfl
    have hne : (FrameFormat.extended = FrameFormat.extended) = True := by
      simp
    have hor32 : fid ||| CAN_MASK_EXTENDED_FRAME_BIT < 2 ^ 32 := by
      rw [show CAN_MASK_EXTENDED_FRAME_BIT = 2 ^ 31 from by
        norm_num [CAN_MASK_EXTENDED_FRAME_BIT]]
      exact Nat.or_lt_two_pow (by omega) (by norm_num)
    have hmask : (fid ||| CAN_MASK_EXTENDED_FRAME_BIT) &&& CAN_MASK_ID_ONLY = fid := by
      rw [show CAN_MASK_EXTENDED_FRAME_BIT = 2 ^ 31 from by
          norm_num [CAN_MASK_EXTENDED_FRAME_BIT],
        show CAN_MASK_ID_ONLY = 2 ^ 29 - 1 from by norm_num [CAN_MASK_ID_ONLY]]
      apply Nat.eq_of_testBit_eq
      intro i
      rw [Nat.testBit_and, Nat.testBit_or, Nat.testBit_two_pow_sub_one]
      by_cases hi : i < 29
      · rw [Nat.testBit_two_pow_of_ne (by omega)]
        simp [hi]
      · have hf : fid.testBit i = false :=
          Nat.testBit_lt_two_pow (lt_of_lt_of_le (by omega : fid < 2 ^ 29)
            (Nat.pow_le_pow_right (by norm_num) (by omega)))
        simp [hi, hf]
    have hbit : (fid ||| CAN_MASK_EXTENDED_FRAME_BIT) &&& CAN_MASK_EXTENDED_FRAME_BIT ≠ 0 := by
      rw [show CAN_MASK_EXTENDED_FRAME_BIT = 2 ^ 31 from by
        norm_num [CAN_MASK_EXTENDED_FRAME_BIT]]
      rw [Nat.and_two_pow, Nat.testBit_or, Nat.testBit_two_pow_self]
      simp
    simp only [get_rawframe, le4, from_rawframe, hne, if_true]
    have h16 : ([(fid ||| CAN_MASK_EXTENDED_FRAME_BIT) % 256,
        (fid ||| CAN_MASK_EXTENDED_FRAME_BIT) / 256 % 256,
        (fid ||| CAN_MASK_EXTENDED_FRAME_BIT) / 256 ^ 2 % 256,
        (fid ||| CAN_MASK_EXTENDED_FRAME_BIT) / 256 ^ 3 % 256]
        ++ [fdata.length] ++ [0, 0, 0] ++ pad8 fdata).length = 16 := by
      simp [pad8_length fdata hlen]
    rw [if_neg (by simp only [h16]; omega)]
    simp only [List.cons_append, List.nil_append, List.getD_cons_zero,
      List.getD_cons_succ, List.drop_succ_cons, List.drop_zero]
    simp only [hfp (fid ||| CAN_MASK_EXTENDED_FRAME_BIT) hor32]
    rw [show List.take 8 (pad8 fdata) = pad8 fdata from by
      rw [show (8:ℕ) = (pad8 fdata).length from (pad8_length fdata hlen).symm,
        List.take_length]]
    rw [show List.take fdata.length (pad8 fdata) = fdata from by
      rw [pad8, List.take_left]]
    rw [if_pos hbit]
    rw [hmask]
    simp only [mkCanFrame, check_frame_id_and_format, MAX_CAN_FRAME_ID_EXTENDED,
      MAX_NUMBER_OF_CAN_DATA_BYTES]
    rw [if_neg (show ¬ (FrameFormat.extended = FrameFormat.standard ∧
        fid > MAX_CAN_FRAME_ID_STANDARD) from by
      rintro ⟨h, -⟩
      exact FrameFormat.noConfusion h)]
    rw [if_neg (show ¬ (True ∧ fid > 0x1FFFFFFF) from by
      rintro ⟨-, h⟩
      omega)]
    rw [ok_bind]
    rw [if_neg (show ¬ (fdata.length > 8 ∨
        ¬ fdata.all (fun b => decide (b < 256)) = true) from by
      push_neg
      refine ⟨by omega, ?_⟩
      rw [List.all_eq_true]
      intro b hb
      simpa using hbytes b hb)]

/-- Witness for C8: an extended frame with id 0x123456 and two data bytes
    survives the raw wire round trip. -/
theorem claim_c8_raw_roundtrip_witness :
    from_rawframe (get_rawframe
        { frame_id := 0x123456, frame_data := [1, 254],
          frame_format := FrameFormat.extended }) =
      .ok { frame_id := 0x123456, frame_data := [1, 254],
            frame_format := FrameFormat.extended } :=
  claim_c8_raw_roundtrip
    { frame_id := 0x123456, frame_data := [1, 254],
      frame_format := FrameFormat.extended }
    (fun h => nomatch h) (fun _ => by norm_num [MAX_CAN_FRAME_ID_EXTENDED])
    (by norm_num) (by decide)

/-- Claim C10: for every 16-byte raw buffer of byte values whose combined-id
    field is consistent with its extended-frame bit (id at most 0x7FF when
    the bit is clear), from_rawframe succeeds, even when the dlc byte
    exceeds 8; the data of the parsed frame is the first min(dlc, 8) of the
    8 data bytes, so the parsed frame always satisfies the length invariant
    of at most 8 data bytes. -/
theorem claim_c10_tolerant_parsing (raw : List Nat) (hlen : raw.length = 16)
    (hbytes : ∀ b ∈ raw, b < 256)
    (hcons : (raw.getD 0 0 + 256 * raw.getD 1 0 + 256 ^ 2 * raw.getD 2 0 +
        256 ^ 3 * raw.getD 3 0) &&& CAN_MASK_EXTENDED_FRAME_BIT = 0 →
      (raw.getD 0 0 + 256 * raw.getD 1 0 + 256 ^ 2 * raw.getD 2 0 +
        256 ^ 3 * raw.getD 3 0) &&& CAN_MASK_ID_ONLY ≤ MAX_CAN_FRAME_ID_STANDARD) :
    ∃ f : CanFrame, from_rawframe raw = .ok f ∧
      f.frame_data = ((raw.drop 8).take 8).take (raw.getD 4 0) ∧
      f.frame_data.length = min (raw.getD 4 0) 8 ∧
      f.frame_data.length ≤ 8 := by
  have hdatalen : (((raw.drop 8).take 8).take (raw.getD 4 0)).length
      = min (raw.getD 4 0) 8 := by
    rw [List.length_take, List.length_take, List.length_drop, hlen]
    omega
  have hdatabytes : ∀ b ∈ ((raw.drop 8).take 8).take (raw.getD 4 0), b < 256 := by
    intro b hb
    exact hbytes b (List.mem_of_mem_drop (List.mem_of_mem_take
      (List.mem_of_mem_take hb)))
  have hfplt : raw.getD 0 0 + 256 * raw.getD 1 0 + 256 ^ 2 * raw.getD 2 0 +
      256 ^ 3 * raw.getD 3 0 < 2 ^ 32 := by
    have h0 : raw.getD 0 0 < 256 := getD_lt_256 raw hbytes 0
    have h1 : raw.getD 1 0 < 256 := getD_lt_256 raw hbytes 1
    have h2 : raw.getD 2 0 < 256 := getD_lt_256 raw hbytes 2
    have h3 : raw.getD 3 0 < 256 := getD_lt_256 raw hbytes 3
    omega
  simp only [from_rawframe]
  rw [if_neg (by omega)]
  by_cases hbit : (raw.getD 0 0 + 256 * raw.getD 1 0 + 256 ^ 2 * raw.getD 2 0 +
      256 ^ 3 * raw.getD 3 0) &&& CAN_MASK_EXTENDED_FRAME_BIT = 0
  · refine ⟨⟨(raw.getD 0 0 + 256 * raw.getD 1 0 + 256 ^ 2 * raw.getD 2 0 +
        256 ^ 3 * raw.getD 3 0) &&& CAN_MASK_ID_ONLY,
        ((raw.drop 8).take 8).take (raw.getD 4 0), FrameFormat.standard⟩,
      ?_, rfl, hdatalen, hdatalen.trans_le (by omega)⟩
    rw [if_neg (by simpa using hbit)]
    simp only [mkCanFrame, check_frame_id_and_format]
    rw [if_neg (show ¬ (True ∧
        (raw.getD 0 0 + 256 * raw.getD 1 0 + 256 ^ 2 * raw.getD 2 0 +
          256 ^ 3 * raw.getD 3 0) &&& CAN_MASK_ID_ONLY > MAX_CAN_FRAME_ID_STANDARD) from by
      rintro ⟨-, h⟩
      exact absurd (hcons hbit) (by omega))]
    rw [if_neg (show ¬ (FrameFormat.standard = FrameFormat.extended ∧
        (raw.getD 0 0 + 256 * raw.getD 1 0 + 256 ^ 2 * raw.getD 2 0 +
          256 ^ 3 * raw.getD 3 0) &&& CAN_MASK_ID_ONLY > MAX_CAN_FRAME_ID_EXTENDED) from by
      rintro ⟨h, -⟩
      exact FrameFormat.noConfusion h)]
    rw [ok_bind]
    rw [if_neg (show ¬ ((((raw.drop 8).take 8).take (raw.getD 4 0)).length >
        MAX_NUMBER_OF_CAN_DATA_BYTES ∨
        ¬ (((raw.drop 8).take 8).take (raw.getD 4 0)).all
          (fun b => decide (b < 256)) = true) from by
      push_neg
      refine ⟨by rw [hdatalen]; simp only [MAX_NUMBER_OF_CAN_DATA_BYTES]; omega, ?_⟩
      rw [List.all_eq_true]
      intro b hb
      simpa using hdatabytes b hb)]
  · have hidle : (raw.getD 0 0 + 256 * raw.getD 1 0 + 256 ^ 2 * raw.getD 2 0 +
        256 ^ 3 * raw.getD 3 0) &&& CAN_MASK_ID_ONLY ≤ MAX_CAN_FRAME_ID_EXTENDED := by
      rw [show CAN_MASK_ID_ONLY = 2 ^ 29 - 1 from by norm_num [CAN_MASK_ID_ONLY],
        Nat.and_pow_two_sub_one_eq_mod]
      have := Nat.mod_lt (raw.getD 0 0 + 256 * raw.getD 1 0 +
        256 ^ 2 * raw.getD 2 0 + 256 ^ 3 * raw.getD 3 0) (show 0 < 2 ^ 29 by norm_num)
      norm_num [MAX_CAN_FRAME_ID_EXTENDED] at this ⊢
      omega
    refine ⟨⟨(raw.getD 0 0 + 256 * raw.getD 1 0 + 256 ^ 2 * raw.getD 2 0 +
        256 ^ 3 * raw.getD 3 0) &&& CAN_MASK_ID_ONLY,
        ((raw.drop 8).take 8).take (raw.getD 4 0), FrameFormat.extended⟩,
      ?_, rfl, hdatalen, hdatalen.trans_le (by omega)⟩
    rw [if_pos (by simpa using hbit)]
    simp only [mkCanFrame, check_frame_id_and_format]
    rw [if_neg (show ¬ (FrameFormat.extended = FrameFormat.standard ∧
        (raw.getD 0 0 + 256 * raw.getD 1 0 + 256 ^ 2 * raw.getD 2 0 +
          256 ^ 3 * raw.getD 3 0) &&& CAN_MASK_ID_ONLY > MAX_CAN_FRAME_ID_STANDARD) from by
      rintro ⟨h, -⟩
      exact FrameFormat.noConfusion h)]
    rw [if_neg (show ¬ (True ∧
        (raw.getD 0 0 + 256 * raw.getD 1 0 + 256 ^ 2 * raw.getD 2 0 +
          256 ^ 3 * raw.getD 3 0) &&& CAN_MASK_ID_ONLY > MAX_CAN_FRAME_ID_EXTENDED) from by
      rintro ⟨-, h⟩
      exact absurd hidle (by omega))]
    rw [ok_bind]
    rw [if_neg (show ¬ ((((raw.drop 8).take 8).take (raw.getD 4 0)).length >
        MAX_NUMBER_OF_CAN_DATA_BYTES ∨
        ¬ (((raw.drop 8).take 8).take (raw.getD 4 0)).all
          (fun b => decide (b < 256)) = true) from by
      push_neg
      refine ⟨by rw [hdatalen]; simp only [MAX_NUMBER_OF_CAN_DATA_BYTES]; omega, ?_⟩
      rw [List.all_eq_true]
      intro b hb
      simpa using hdatabytes b hb)]

/-- Witness for C10: a buffer with standard id 0x123 and dlc byte 15 parses
    to a frame with the full 8 data bytes. -/
theorem claim_c10_tolerant_parsing_witness :
    (∃ f : CanFrame,
      from_rawframe [0x23, 0x01, 0, 0, 15, 0, 0, 0, 1, 2, 3, 4, 5, 6, 7, 8] = .ok f ∧
      f.frame_data = (([0x23, 0x01, 0, 0, 15, 0, 0, 0, 1, 2, 3, 4, 5, 6, 7,
        8].drop 8).take 8).take
        ([0x23, 0x01, 0, 0, 15, 0, 0, 0, 1, 2, 3, 4, 5, 6, 7, 8].getD 4 0) ∧
      f.frame_data.length =
        min ([0x23, 0x01, 0, 0, 15, 0, 0, 0, 1, 2, 3, 4, 5, 6, 7, 8].getD 4 0) 8 ∧
      f.frame_data.length ≤ 8) ∧
    from_rawframe [0x23, 0x01, 0, 0, 15, 0, 0, 0, 1, 2, 3, 4, 5, 6, 7, 8] =
      .ok { frame_id := 0x123, frame_data := [1, 2, 3, 4, 5, 6, 7, 8],
            frame_format := FrameFormat.standard } :=
  ⟨claim_c10_tolerant_parsing [0x23, 0x01, 0, 0, 15, 0, 0, 0, 1, 2, 3, 4, 5, 6, 7, 8]
    (by decide) (by decide) (by decide), by decide⟩

/-- Claim C7: set_signalvalue fails with the frame-too-short error when the
    payload is shorter than the minimum dlc of the signal; it fails with the
    out-of-range error when the physical value lies outside the representable
    range, regardless of the configured minvalue and maxvalue (out-of-range
    is never silently clamped); and for values inside the representable range
    the minvalue and maxvalue clamping narrows the value, behaving exactly as
    encoding the clamped value with no clamp bounds (provided the clamped
    value is itself representable). -/
theorem claim_c7_set_signalvalue_errors (s : CanSignalDefinition) (f : CanFrame) (v : ℚ) :
    (get_minimum_dlc s > f.frame_data.length →
      set_signalvalue s f (some v) = .error .frameTooShort) ∧
    (get_minimum_dlc s ≤ f.frame_data.length →
      (v < get_minimum_possible_value s ∨ v > get_maximum_possible_value s) →
      set_signalvalue s f (some v) = .error .valueOutOfRange) ∧
    (∀ mn mx : ℚ, s.minvalue = some mn → s.maxvalue = some mx →
      get_minimum_possible_value s ≤ v → v ≤ get_maximum_possible_value s →
      get_minimum_possible_value s ≤ min mx (max mn v) →
      min mx (max mn v) ≤ get_maximum_possible_value s →
      set_signalvalue s f (some v) =
        set_signalvalue { s with minvalue := none, maxvalue := none } f
          (some (min mx (max mn v)))) := by
  refine ⟨?_, ?_, ?_⟩
  · intro hdlc
    simp only [set_signalvalue]
    rw [if_pos hdlc]
  · intro hdlc hrange
    simp only [set_signalvalue]
    rw [if_neg (by omega), if_pos hrange]
  · intro mn mx hmn hmx hlo hhi hclo chhi
    have hdlc2 : get_minimum_dlc { s with minvalue := none, maxvalue := none } =
        get_minimum_dlc s := rfl
    have hminp : get_minimum_possible_value
        { s with minvalue := none, maxvalue := none } =
        get_minimum_possible_value s := rfl
    have hmaxp : get_maximum_possible_value
        { s with minvalue := none, maxvalue := none } =
        get_maximum_possible_value s := rfl
    simp only [set_signalvalue, hmn, hmx, hdlc2, hminp, hmaxp]
    by_cases hdlc : get_minimum_dlc s > f.frame_data.length
    · rw [if_pos hdlc, if_pos hdlc]
    · rw [if_neg hdlc, if_neg hdlc]
      rw [if_neg (show ¬ (v < get_minimum_possible_value s ∨
          v > get_maximum_possible_value s) from by
        push_neg
        exact ⟨hlo, hhi⟩)]
      rw [if_neg (show ¬ (min mx (max mn v) < get_minimum_possible_value s ∨
          min mx (max mn v) > get_maximum_possible_value s) from by
        push_neg
        exact ⟨hclo, chhi⟩)]

/-- Witness for C7: an 8-bit unsigned signal with clamp bounds 10 and 200.
    An empty payload is rejected; 300 is rejected as out of the representable
    range 0..255 even though the clamp bound is 200; the representable value
    250 is encoded exactly like the clamped value 200. -/
theorem claim_c7_set_signalvalue_errors_witness :
    (set_signalvalue
        { signalname := "s7", startbit := 0, numberofbits := 8,
          minvalue := some 10, maxvalue := some 200 }
        { frame_id := 1, frame_data := [] } (some 250) =
      .error .frameTooShort) ∧
    (set_signalvalue
        { signalname := "s7", startbit := 0, numberofbits := 8,
          minvalue := some 10, maxvalue := some 200 }
        { frame_id := 1, frame_data := [0] } (some 300) =
      .error .valueOutOfRange) ∧
    (set_signalvalue
        { signalname := "s7", startbit := 0, numberofbits := 8,
          minvalue := some 10, maxvalue := some 200 }
        { frame_id := 1, frame_data := [0] } (some 250) =
      set_signalvalue
        { signalname := "s7", startbit := 0, numberofbits := 8,
          minvalue := none, maxvalue := none }
        { frame_id := 1, frame_data := [0] } (some (min 200 (max 10 250)))) :=
  ⟨(claim_c7_set_signalvalue_errors
      { signalname := "s7", startbit := 0, numberofbits := 8,
        minvalue := some 10, maxvalue := some 200 }
      { frame_id := 1, frame_data := [] } 250).1 (by decide),
   (claim_c7_set_signalvalue_errors
      { signalname := "s7", startbit := 0, numberofbits := 8,
        minvalue := some 10, maxvalue := some 200 }
      { frame_id := 1, frame_data := [0] } 300).2.1 (by decide) (by decide),
   (claim_c7_set_signalvalue_errors
      { signalname := "s7", startbit := 0, numberofbits := 8,
        minvalue := some 10, maxvalue := some 200 }
      { frame_id := 1, frame_data := [0] } 250).2.2 10 200 rfl rfl
     (by decide) (by decide) (by decide) (by decide)⟩

/-- Writing the integer zero into dlc bytes yields all-zero bytes. -/
theorem int_to_can_bytes_zero (L : Nat) (hL : L ≤ 8) :
    int_to_can_bytes L 0 = List.replicate L 0 := by
  have hmap : (List.range 8).map (fun j => 0 / 256 ^ (7 - j) % 256) =
      List.replicate 8 0 := by decide
  rw [int_to_can_bytes, hmap, List.take_replicate]
  congr 1
  omega

/-- The byte shuffle of a zero bus value yields the integer zero in either
    endianness. -/
theorem shiftedvalue_zero (n start : Nat) (e : Endianness) (hn1 : 1 ≤ n)
    (hstop : e = Endianness.little → start + n - 1 < 64) :
    get_shiftedvalue_from_busvalue 0 e n start = 0 := by
  cases e with
  | big =>
    simp [get_shiftedvalue_from_busvalue, Nat.zero_shiftLeft]
  | little =>
    rw [shiftedvalue_little 0 n start hn1 (hstop rfl) (by positivity)]
    apply valLE_zero_entries
    intro b hb
    rcases List.mem_append.mp hb with h | h
    · exact List.eq_of_mem_replicate h
    · rw [List.mem_reverse] at h
      rcases List.mem_map.mp h with ⟨i, _, heq⟩
      rw [← heq]
      simp [Nat.zero_shiftLeft]

/-- Claim C9, counterexample: the all-zero-field half of the claim fails for
    a constructible signal the claim covers.  The constructor accepts an
    8-bit unsigned signal with valueoffset 0 and minvalue 10 and no explicit
    default (the default-value setter checks only the representable range,
    not the clamp bounds), storing default 0 = valueoffset; but
    set_signalvalue with value None clamps the default up to the minvalue
    and writes the byte 10, not an all-zero field. -/
theorem claim_c9_counterexample :
    mkCanSignalDefinition "c9" 0 8 1 0 none (some 10) none Endianness.little
      SignalType.unsigned =
      .ok { signalname := "c9", startbit := 0, numberofbits := 8,
            scalingfactor := 1, valueoffset := 0, defaultvalue := 0,
            minvalue := some 10, maxvalue := none,
            endianness := Endianness.little,
            signaltype := SignalType.unsigned } ∧
    ({ signalname := "c9", startbit := 0, numberofbits := 8,
       scalingfactor := 1, valueoffset := 0, defaultvalue := 0,
       minvalue := some 10, maxvalue := none, endianness := Endianness.little,
       signaltype := SignalType.unsigned } : CanSignalDefinition).defaultvalue =
      ({ signalname := "c9", startbit := 0, numberofbits := 8,
         scalingfactor := 1, valueoffset := 0, defaultvalue := 0,
         minvalue := some 10, maxvalue := none,
         endianness := Endianness.little,
         signaltype := SignalType.unsigned } : CanSignalDefinition).valueoffset ∧
    set_signalvalue
      { signalname := "c9", startbit := 0, numberofbits := 8,
        scalingfactor := 1, valueoffset := 0, defaultvalue := 0,
        minvalue := some 10, maxvalue := none, endianness := Endianness.little,
        signaltype := SignalType.unsigned }
      { frame_id := 1, frame_data := [0] } none =
      .ok { frame_id := 1, frame_data := [10] } ∧
    ([10] : List Nat) ≠ List.replicate 1 0 := by
  refine ⟨by decide, by decide, by decide, by decide⟩

/-- Claim C9 (amended): a CanSignalDefinition constructed without an explicit
    default value stores the valueoffset as its default, for every signal;
    and on a signal without minvalue and maxvalue clamp bounds (whose
    valueoffset is an exact double), setting the signal to None writes an
    all-zero field: on an all-zero payload the frame stays all zero, for
    every signal type and both endiannesses.  The counterexample shows the
    all-zero conclusion fails when a clamp bound excludes the valueoffset. -/
theorem claim_c9_default_value :
    (∀ (name : String) (start n : Nat) (scale offset : ℚ) (mn mx : Option ℚ)
        (e : Endianness) (t : SignalType) (s : CanSignalDefinition),
      mkCanSignalDefinition name start n scale offset none mn mx e t = .ok s →
      s.defaultvalue = s.valueoffset) ∧
    (∀ (s : CanSignalDefinition) (f : CanFrame) (L : Nat),
      s.defaultvalue = s.valueoffset → fl s.valueoffset = s.valueoffset →
      s.minvalue = none → s.maxvalue = none → ValidPlacement s →
      f.frame_data = List.replicate L 0 → get_minimum_dlc s ≤ L → L ≤ 8 →
      get_minimum_possible_value s ≤ s.valueoffset →
      s.valueoffset ≤ get_maximum_possible_value s →
      (s.signaltype = SignalType.double → L = 8) →
      set_signalvalue s f none = .ok { f with frame_data := List.replicate L 0 }) := by
  constructor
  · intro name start n scale offset mn mx e t s hk
    simp only [mkCanSignalDefinition] at hk
    split at hk
    · cases h1 : check_signal_value_range
          { signalname := name, startbit := start, numberofbits := n,
            scalingfactor := scale, valueoffset := offset, defaultvalue := 0,
            minvalue := none, maxvalue := none, endianness := e,
            signaltype := t } mn with
      | error e1 =>
        rw [h1, error_bind] at hk
        exact Except.noConfusion hk
      | ok u1 =>
        rw [h1, ok_bind] at hk
        cases h2 : check_signal_value_range
            { signalname := name, startbit := start, numberofbits := n,
              scalingfactor := scale, valueoffset := offset, defaultvalue := 0,
              minvalue := none, maxvalue := none, endianness := e,
              signaltype := t } mx with
        | error e2 =>
          rw [h2, error_bind] at hk
          exact Except.noConfusion hk
        | ok u2 =>
          rw [h2, ok_bind] at hk
          cases h3 : check_signal_value_range
              { signalname := name, startbit := start, numberofbits := n,
                scalingfactor := scale, valueoffset := offset, defaultvalue := 0,
                minvalue := none, maxvalue := none, endianness := e,
                signaltype := t } (some offset) with
          | error e3 =>
            rw [h3, error_bind] at hk
            exact Except.noConfusion hk
          | ok u3 =>
            rw [h3, ok_bind] at hk
            simp only [Except.ok.injEq] at hk
            rw [← hk]
    · exact Except.noConfusion hk
  · intro s f L hdef hfloff hmin hmax hvp hdata hdlc hL8 hlo hhi hdbl
    have hn1 : 1 ≤ s.numberofbits := hvp.1
    have hlen : f.frame_data.length = L := by rw [hdata, List.length_replicate]
    have hstopL : s.endianness = Endianness.little →
        s.startbit + s.numberofbits - 1 < 64 := by
      intro he
      have h := hvp.2.2.1
      rw [he] at h
      simpa [BITS_IN_FULL_DATA] using h
    have hsv0 : get_shiftedvalue_from_busvalue 0 s.endianness s.numberofbits
        s.startbit = 0 := shiftedvalue_zero _ _ _ hn1 hstopL
    have hpow : (0:ℤ) < 2 ^ s.numberofbits := by positivity
    have hpow1 : (0:ℤ) < 2 ^ (s.numberofbits - 1) := by positivity
    have hs0 : fsub s.valueoffset s.valueoffset = 0 := by
      rw [fsub, sub_self, fl_zero]
    have hd0 : fdiv 0 s.scalingfactor = 0 := by
      rw [fdiv, zero_div, fl_zero]
    have htr : truncQ 0 = 0 := by decide
    simp only [set_signalvalue, hmin, hmax, hdef, hfloff, hs0, hd0, htr]
    rw [if_neg (by omega)]
    rw [if_neg (show ¬ (s.valueoffset < get_minimum_possible_value s ∨
        s.valueoffset > get_maximum_possible_value s) from by
      push_neg
      exact ⟨hlo, hhi⟩)]
    cases ht : s.signaltype with
    | unsigned =>
      rw [ok_bind]
      rw [if_neg (show ¬ ((0:ℤ) > 2 ^ s.numberofbits - 1) from by omega)]
      rw [if_neg (show ¬ ((0:ℤ) < 0) from by omega)]
      rw [show (0:ℤ).toNat = 0 from rfl, hsv0]
      rw [hdata, canInt_replicate_zero]
      simp only [Nat.zero_and, Nat.zero_or, Nat.or_zero, List.length_replicate]
      rw [int_to_can_bytes_zero L hL8]
    | signed =>
      have htc : twos_complement 0 s.numberofbits = .ok 0 := by
        simp only [twos_complement]
        rw [if_neg (by omega), if_pos (by omega)]
        rfl
      simp only [htc, ok_bind, Nat.cast_zero]
      rw [if_neg (show ¬ ((0:ℤ) > 2 ^ s.numberofbits - 1) from by omega)]
      rw [if_neg (show ¬ ((0:ℤ) < 0) from by omega)]
      rw [show (0:ℤ).toNat = 0 from rfl, hsv0]
      rw [hdata, canInt_replicate_zero]
      simp only [Nat.zero_and, Nat.zero_or, Nat.or_zero, List.length_replicate]
      rw [int_to_can_bytes_zero L hL8]
    | single =>
      have hps : packSingle 0 = .ok 0 := by decide
      have hcan : can_bytes_to_int (List.replicate 4 0 ++
          (List.range 4).map (fun j => 0 / 256 ^ (3 - j) % 256)) = 0 := by decide
      simp only [hps, ok_bind, hcan, Nat.cast_zero]
      rw [if_neg (show ¬ ((0:ℤ) > 2 ^ s.numberofbits - 1) from by omega)]
      rw [if_neg (show ¬ ((0:ℤ) < 0) from by omega)]
      rw [show (0:ℤ).toNat = 0 from rfl, hsv0]
      rw [hdata, canInt_replicate_zero]
      simp only [Nat.zero_and, Nat.zero_or, Nat.or_zero, List.length_replicate]
      rw [int_to_can_bytes_zero L hL8]
    | double =>
      have hL : L = 8 := hdbl ht
      have hpd : packDoubleBE 0 = .ok (List.replicate 8 0) := by decide
      simp only [hpd, ok_bind]
      cases he : s.endianness with
      | little =>
        rw [show (List.replicate 8 (0:ℕ)).reverse = List.replicate 8 0 from by decide,
          hL]
      | big =>
        rw [hL]

/-- Witness for C9: a 12-bit signed signal at startbit 8 with offset 5 and no
    explicit default stores default 5, and setting None on a 3-byte zero
    payload keeps the payload zero. -/
theorem claim_c9_default_value_witness :
    ({ signalname := "w9", startbit := 8, numberofbits := 12,
       scalingfactor := 1, valueoffset := 5, defaultvalue := 5,
       minvalue := none, maxvalue := none, endianness := Endianness.little,
       signaltype := SignalType.signed } : CanSignalDefinition).defaultvalue =
      ({ signalname := "w9", startbit := 8, numberofbits := 12,
         scalingfactor := 1, valueoffset := 5, defaultvalue := 5,
         minvalue := none, maxvalue := none, endianness := Endianness.little,
         signaltype := SignalType.signed } : CanSignalDefinition).valueoffset ∧
    set_signalvalue
        { signalname := "w9", startbit := 8, numberofbits := 12,
          scalingfactor := 1, valueoffset := 5, defaultvalue := 5,
          minvalue := none, maxvalue := none, endianness := Endianness.little,
          signaltype := SignalType.signed }
        { frame_id := 1, frame_data := List.replicate 3 0 } none =
      .ok { frame_id := 1, frame_data := List.replicate 3 0 } :=
  ⟨claim_c9_default_value.1 "w9" 8 12 1 5 none none Endianness.little
      SignalType.signed
      { signalname := "w9", startbit := 8, numberofbits := 12,
        scalingfactor := 1, valueoffset := 5, defaultvalue := 5,
        minvalue := none, maxvalue := none, endianness := Endianness.little,
        signaltype := SignalType.signed } (by decide),
   claim_c9_default_value.2
      { signalname := "w9", startbit := 8, numberofbits := 12,
        scalingfactor := 1, valueoffset := 5, defaultvalue := 5,
        minvalue := none, maxvalue := none, endianness := Endianness.little,
        signaltype := SignalType.signed }
      { frame_id := 1, frame_data := List.replicate 3 0 } 3 rfl (by decide)
      rfl rfl (by decide) rfl (by decide) (by decide) (by decide) (by decide)
      (fun h => nomatch h)⟩

/-- A successful bind factors through a successful first computation. -/
theorem bind_ok_inv {ε α β : Type} (r : Except ε α) (g : α → Except ε β) (b : β)
    (h : r >>= g = .ok b) : ∃ a, r = .ok a ∧ g a = .ok b := by
  cases r with
  | error e => exact absurd h (by intro hc; exact Except.noConfusion hc)
  | ok a => exact ⟨a, rfl, h⟩

/-- can_bytes_to_int factors as a power of 256 times the little-endian value
    of the reversed bytes: short payloads have zero low bits. -/
theorem canInt_factor (bs : List Nat) :
    can_bytes_to_int bs = 256 ^ (8 - bs.length) * valLE bs.reverse := by
  rw [can_bytes_to_int_eq_valLE, pad8, List.reverse_append, List.reverse_replicate,
    valLE_append, valLE_replicate_zero, List.length_replicate]
  ring

theorem mul_pow_testBit_low (k c t : Nat) (ht : t < k) :
    (2 ^ k * c).testBit t = false := by
  rw [mul_comm, ← Nat.shiftLeft_eq, Nat.testBit_shiftLeft]
  simp [Nat.not_le.mpr ht]

theorem trunc_testBit (x k t : Nat) :
    (x / 2 ^ k * 2 ^ k).testBit t = if k ≤ t then x.testBit t else false := by
  rw [← Nat.shiftRight_eq_div_pow, ← Nat.shiftLeft_eq, Nat.testBit_shiftLeft,
    Nat.testBit_shiftRight]
  by_cases hk : k ≤ t
  · rw [if_pos hk]
    rw [decide_eq_true hk, Bool.true_and]
    congr 1
    omega
  · rw [if_neg hk]
    rw [decide_eq_false hk, Bool.false_and]

theorem digit_testBit (w j r : Nat) (hr : r < 8) :
    (w / 256 ^ j % 256).testBit r = w.testBit (8 * j + r) := by
  have h256 : (256:ℕ) = 2 ^ 8 := by norm_num
  have hpow : (256:ℕ) ^ j = 2 ^ (8 * j) := by
    rw [h256, ← pow_mul]
  rw [hpow, h256, Nat.testBit_mod_two_pow, decide_eq_true hr, Bool.true_and,
    ← Nat.shiftRight_eq_div_pow, Nat.testBit_shiftRight]

/-- The byte at position p of the little-endian shuffle layout. -/
theorem shuffle_getD (w b0 be p : Nat) (hb0 : b0 ≤ be) (hbe : be ≤ 7) :
    (List.replicate (7 - be) (0:ℕ) ++ (digitsLE (be - b0 + 1) w).reverse).getD p 0 =
      if 7 - be ≤ p ∧ p ≤ 7 - b0 then w / 256 ^ (7 - b0 - p) % 256 else 0 := by
  by_cases h1 : p < 7 - be
  · rw [if_neg (by omega)]
    rw [List.getD_eq_getElem?_getD,
      List.getElem?_append_left (by rw [List.length_replicate]; omega),
      List.getElem?_replicate, if_pos h1]
    rfl
  · by_cases h2 : p ≤ 7 - b0
    · rw [if_pos (by omega)]
      rw [List.getD_eq_getElem?_getD,
        List.getElem?_append_right (by rw [List.length_replicate]; omega)]
      rw [List.length_replicate, ← List.getD_eq_getElem?_getD]
      rw [getD_reverse _ _ (by rw [digitsLE_length]; omega), digitsLE_length]
      rw [digitsLE_getD _ _ _ (by omega)]
      rw [show be - b0 + 1 - 1 - (p - (7 - be)) = 7 - b0 - p from by omega]
    · rw [if_neg (by omega)]
      rw [List.getD_eq_getElem?_getD, List.getElem?_eq_none]
      · rfl
      · rw [List.length_append, List.length_replicate, List.length_reverse,
          digitsLE_length]
        omega

/-- Bit t of the little-endian shuffled field in terms of the shifted bus
    value. -/
theorem shifted_little_testBit (v n start t : Nat) (h1 : 1 ≤ n)
    (hstop : start + n - 1 < 64) (hv : v < 2 ^ n) :
    (get_shiftedvalue_from_busvalue v .little n start).testBit t =
      if 7 - (start + n - 1) / 8 ≤ t / 8 ∧ t / 8 ≤ 7 - start / 8 then
        (v <<< (start % 8)).testBit (8 * (7 - start / 8 - t / 8) + t % 8)
      else false := by
  rw [shiftedvalue_little v n start h1 hstop hv]
  have hent : ∀ b ∈ List.replicate (7 - (start + n - 1) / 8) (0:ℕ) ++
      (digitsLE ((start + n - 1) / 8 - start / 8 + 1)
        (v <<< (start % 8))).reverse, b < 256 := by
    intro b hb
    rcases List.mem_append.mp hb with h | h
    · rw [List.eq_of_mem_replicate h]
      norm_num
    · exact digitsLE_entries _ _ b (List.mem_reverse.mp h)
  rw [valLE_testBit _ hent]
  rw [shuffle_getD _ _ _ _ (by omega) (by omega)]
  split
  · exact digit_testBit _ _ _ (Nat.mod_lt _ (by norm_num))
  · exact Nat.zero_testBit _

/-- Every bit set in the shuffled image of a bus value below 2 to the n is
    also set in the shuffled image of the all-ones bus value (the mask the
    code computes). -/
theorem shifted_subset (e : Endianness) (v n start t : Nat) (h1 : 1 ≤ n)
    (hstop : e = Endianness.little → start + n - 1 < 64) (hv : v < 2 ^ n)
    (ht : (get_shiftedvalue_from_busvalue v e n start).testBit t = true) :
    (get_shiftedvalue_from_busvalue (2 ^ n - 1) e n start).testBit t = true := by
  have hm : 2 ^ n - 1 < 2 ^ n := Nat.sub_lt (by positivity) one_pos
  cases e with
  | big =>
    simp only [get_shiftedvalue_from_busvalue] at ht ⊢
    rw [Nat.testBit_shiftLeft] at ht ⊢
    rcases (Bool.and_eq_true _ _).mp ht with ⟨hK, hbit⟩
    rw [hK, Bool.true_and]
    have hlt : t - calculate_backward_bitnumber start < n := by
      by_contra hcon
      rw [Nat.testBit_lt_two_pow (lt_of_lt_of_le hv
        (Nat.pow_le_pow_right (by norm_num) (by omega)))] at hbit
      exact Bool.false_ne_true hbit
    rw [Nat.testBit_two_pow_sub_one]
    exact decide_eq_true hlt
  | little =>
    rw [shifted_little_testBit v n start t h1 (hstop rfl) hv] at ht
    rw [shifted_little_testBit _ n start t h1 (hstop rfl) hm]
    split at ht
    case isTrue h =>
      rw [if_pos h]
      rw [Nat.testBit_shiftLeft] at ht ⊢
      rcases (Bool.and_eq_true _ _).mp ht with ⟨hK, hbit⟩
      rw [hK, Bool.true_and]
      have hlt : 8 * (7 - start / 8 - t / 8) + t % 8 - start % 8 < n := by
        by_contra hcon
        rw [Nat.testBit_lt_two_pow (lt_of_lt_of_le hv
          (Nat.pow_le_pow_right (by norm_num) (by omega)))] at hbit
        exact Bool.false_ne_true hbit
      rw [Nat.testBit_two_pow_sub_one]
      exact decide_eq_true hlt
    case isFalse h => exact absurd ht (by simp)

theorem shifted_lt64 (e : Endianness) (v n start : Nat) (h1 : 1 ≤ n)
    (hv : v < 2 ^ n)
    (hplace : if e = Endianness.little then start + n - 1 < 64
      else calculate_backward_bitnumber start + n - 1 < 64) :
    get_shiftedvalue_from_busvalue v e n start < 2 ^ 64 := by
  cases e with
  | little =>
    rw [if_pos rfl] at hplace
    rw [shiftedvalue_little v n start h1 hplace hv]
    calc valLE _ < 256 ^ (List.replicate (7 - (start + n - 1) / 8) (0:ℕ) ++
          (digitsLE ((start + n - 1) / 8 - start / 8 + 1)
            (v <<< (start % 8))).reverse).length := by
          apply valLE_lt
          intro b hb
          rcases List.mem_append.mp hb with h | h
          · rw [List.eq_of_mem_replicate h]
            norm_num
          · exact digitsLE_entries _ _ b (List.mem_reverse.mp h)
      _ ≤ 256 ^ 8 := by
          rw [List.length_append, List.length_replicate, List.length_reverse,
            digitsLE_length]
          exact Nat.pow_le_pow_right (by norm_num) (by omega)
      _ = 2 ^ 64 := by norm_num
  | big =>
    rw [if_neg (by intro h; exact Endianness.noConfusion h)] at hplace
    simp only [get_shiftedvalue_from_busvalue]
    rw [Nat.shiftLeft_eq]
    calc v * 2 ^ calculate_backward_bitnumber start
        < 2 ^ n * 2 ^ calculate_backward_bitnumber start :=
          (Nat.mul_lt_mul_right (by positivity)).mpr hv
      _ = 2 ^ (n + calculate_backward_bitnumber start) := by rw [pow_add]
      _ ≤ 2 ^ 64 := Nat.pow_le_pow_right (by norm_num) (by omega)

/-- Bit-level core of the independence claim: writing masked-in bits B over
    a payload integer D leaves every bit outside the mask M unchanged. -/
theorem indep_core (D M B L t : Nat) (hL : L ≤ 8)
    (hdvd : 2 ^ (8 * (8 - L)) ∣ D) (hD : D < 2 ^ 64) (hB64 : B < 2 ^ 64)
    (hBM : ∀ u, B.testBit u = true → M.testBit u = true)
    (hM : M.testBit t = false) :
    (can_bytes_to_int (int_to_can_bytes L
      ((D &&& (2 ^ 64 - 1 ^^^ M)) ||| B))).testBit t = D.testBit t := by
  have hX64 : (D &&& (2 ^ 64 - 1 ^^^ M)) ||| B < 2 ^ 64 :=
    Nat.or_lt_two_pow (lt_of_le_of_lt Nat.and_le_left hD) hB64
  rw [canInt_int_to_can_bytes L _ hL hX64]
  have h2568 : (256:ℕ) ^ (8 - L) = 2 ^ (8 * (8 - L)) := by
    rw [show (256:ℕ) = 2 ^ 8 from by norm_num, ← pow_mul]
  rw [h2568, trunc_testBit]
  have hBt : B.testBit t = false := by
    cases hb : B.testBit t
    · rfl
    · rw [hBM t hb] at hM
      exact absurd hM (by simp)
  by_cases hk : 8 * (8 - L) ≤ t
  · rw [if_pos hk]
    rw [Nat.testBit_or, Nat.testBit_and, Nat.testBit_xor, hBt, hM,
      Nat.testBit_two_pow_sub_one, Bool.or_false]
    by_cases ht64 : t < 64
    · rw [decide_eq_true ht64]
      simp
    · rw [decide_eq_false ht64]
      have hDt : D.testBit t = false :=
        Nat.testBit_lt_two_pow (lt_of_lt_of_le hD
          (Nat.pow_le_pow_right (by norm_num) (by omega)))
      simp [hDt]
  · rw [if_neg hk]
    obtain ⟨c, hc⟩ := hdvd
    rw [hc]
    exact (mul_pow_testBit_low _ _ _ (by omega)).symm

/-- The integer and single encode path of set_signalvalue changes no bit
    outside the signal mask. -/
theorem indep_int_path (s : CanSignalDefinition) (f f2 : CanFrame) (bus : ℤ)
    (hn1 : 1 ≤ s.numberofbits)
    (hstopL : s.endianness = Endianness.little →
      s.startbit + s.numberofbits - 1 < 64)
    (hplace : if s.endianness = Endianness.little then
        s.startbit + s.numberofbits - 1 < 64
      else calculate_backward_bitnumber s.startbit + s.numberofbits - 1 < 64)
    (hlen8 : f.frame_data.length ≤ 8) (hbytes : ∀ b ∈ f.frame_data, b < 256)
    (hK : (if bus > 2 ^ s.numberofbits - 1 then
        (Except.error CanErr.assertFailed : Except CanErr CanFrame)
      else if bus < 0 then Except.error CanErr.assertFailed
      else Except.ok { f with
                       frame_data := int_to_can_bytes f.frame_data.length
                         ((can_bytes_to_int f.frame_data &&&
                           (2 ^ 64 - 1 ^^^ get_shiftedvalue_from_busvalue
                             (1 <<< s.numberofbits - 1) s.endianness
                             s.numberofbits s.startbit)) |||
                           get_shiftedvalue_from_busvalue bus.toNat s.endianness
                             s.numberofbits s.startbit) }) = .ok f2)
    (t : Nat)
    (hmask : (get_shiftedvalue_from_busvalue (2 ^ s.numberofbits - 1)
      s.endianness s.numberofbits s.startbit).testBit t = false) :
    (can_bytes_to_int f2.frame_data).testBit t =
      (can_bytes_to_int f.frame_data).testBit t := by
  split at hK
  · exact absurd hK (fun hc => Except.noConfusion hc)
  · split at hK
    · exact absurd hK (fun hc => Except.noConfusion hc)
    · rename_i h1 h2
      have hZN : (((2:ℕ) ^ s.numberofbits : ℕ) : ℤ) = (2:ℤ) ^ s.numberofbits := by
        push_cast
        ring
      have hv : bus.toNat < 2 ^ s.numberofbits := by omega
      have hdata2 : f2.frame_data = int_to_can_bytes f.frame_data.length
          ((can_bytes_to_int f.frame_data &&&
            (2 ^ 64 - 1 ^^^ get_shiftedvalue_from_busvalue
              (1 <<< s.numberofbits - 1) s.endianness s.numberofbits s.startbit)) |||
            get_shiftedvalue_from_busvalue bus.toNat s.endianness s.numberofbits
              s.startbit) := by
        injection hK with h
        rw [← h]
      rw [hdata2, Nat.one_shiftLeft]
      exact indep_core (can_bytes_to_int f.frame_data) _ _ _ t hlen8
        (by
          rw [canInt_factor, show (256:ℕ) ^ (8 - f.frame_data.length) =
            2 ^ (8 * (8 - f.frame_data.length)) from by
              rw [show (256:ℕ) = 2 ^ 8 from by norm_num, ← pow_mul]]
          exact Dvd.intro _ rfl)
        (canInt_lt f.frame_data hlen8 hbytes)
        (shifted_lt64 s.endianness bus.toNat s.numberofbits s.startbit hn1 hv hplace)
        (fun u hu => shifted_subset s.endianness bus.toNat s.numberofbits
          s.startbit u hn1 hstopL hv hu)
        hmask

/-- Claim C5: if set_signalvalue succeeds on a payload (of at most 8 byte
    values), every payload bit outside the bit positions of the signal mask
    (the shuffled image of the all-ones bus value of the signal) is the same
    in the result as in the input, for every signal type and both
    endiannesses. -/
theorem claim_c5_independence (s : CanSignalDefinition) (f f2 : CanFrame)
    (physical : Option ℚ) (hvp : ValidPlacement s)
    (hlen8 : f.frame_data.length ≤ 8) (hbytes : ∀ b ∈ f.frame_data, b < 256)
    (hok : set_signalvalue s f physical = .ok f2) (t : Nat)
    (hmask : (get_shiftedvalue_from_busvalue (2 ^ s.numberofbits - 1)
      s.endianness s.numberofbits s.startbit).testBit t = false) :
    (can_bytes_to_int f2.frame_data).testBit t =
      (can_bytes_to_int f.frame_data).testBit t := by
  obtain ⟨hn1, hstart, hplace, hsingle, hdouble⟩ := hvp
  have hstart' : s.startbit < 64 := by simpa [BITS_IN_FULL_DATA] using hstart
  have hplace' : if s.endianness = Endianness.little then
      s.startbit + s.numberofbits - 1 < 64
    else calculate_backward_bitnumber s.startbit + s.numberofbits - 1 < 64 := by
    simpa [BITS_IN_FULL_DATA] using hplace
  have hstopL : s.endianness = Endianness.little →
      s.startbit + s.numberofbits - 1 < 64 := by
    intro he
    rw [he] at hplace'
    simpa using hplace'
  simp only [set_signalvalue] at hok
  split at hok
  · exact absurd hok (fun hc => Except.noConfusion hc)
  split at hok
  · exact absurd hok (fun hc => Except.noConfusion hc)
  cases htype : s.signaltype with
  | unsigned =>
    simp only [htype] at hok
    obtain ⟨bus, _, hK⟩ := bind_ok_inv _ _ _ hok
    exact indep_int_path s f f2 bus hn1 hstopL hplace' hlen8 hbytes hK t hmask
  | signed =>
    simp only [htype] at hok
    obtain ⟨b, _, hok2⟩ := bind_ok_inv _ _ _ hok
    obtain ⟨bus, _, hK⟩ := bind_ok_inv _ _ _ hok2
    exact indep_int_path s f f2 bus hn1 hstopL hplace' hlen8 hbytes hK t hmask
  | single =>
    simp only [htype] at hok
    obtain ⟨pat, _, hok2⟩ := bind_ok_inv _ _ _ hok
    obtain ⟨bus, _, hK⟩ := bind_ok_inv _ _ _ hok2
    exact indep_int_path s f f2 bus hn1 hstopL hplace' hlen8 hbytes hK t hmask
  | double =>
    have hn64 : s.numberofbits = 64 := hdouble htype
    simp only [htype] at hok
    obtain ⟨bs, hpd, hrest⟩ := bind_ok_inv _ _ _ hok
    simp only [packDoubleBE] at hpd
    obtain ⟨pattern, _, hbsv⟩ := bind_ok_inv _ _ _ hpd
    have hbs : bs = (List.range 8).map (fun j => pattern / 256 ^ (7 - j) % 256) := by
      injection hbsv with h
      exact h.symm
    have hbslen : bs.length = 8 := by
      rw [hbs]
      simp
    have hbsent : ∀ b ∈ bs, b < 256 := by
      rw [hbs]
      intro b hb
      obtain ⟨i, _, hi⟩ := List.mem_map.mp hb
      rw [← hi]
      exact Nat.mod_lt _ (by norm_num)
    cases hend : s.endianness with
    | little =>
      have hs0 : s.startbit = 0 := by
        have h := hstopL hend
        rw [hn64] at h
        omega
      rw [hend, hn64, hs0] at hmask
      rw [show get_shiftedvalue_from_busvalue (2 ^ 64 - 1) Endianness.little 64 0 =
        2 ^ 64 - 1 from by decide] at hmask
      rw [Nat.testBit_two_pow_sub_one] at hmask
      have ht64 : 64 ≤ t := by
        by_contra hc
        rw [decide_eq_true (by omega : t < 64)] at hmask
        exact absurd hmask (by simp)
      simp only [hend] at hrest
      have hnew : f2.frame_data = bs.reverse := by
        injection hrest with h
        rw [← h]
      rw [hnew]
      rw [Nat.testBit_lt_two_pow (lt_of_lt_of_le
        (canInt_lt _ (by rw [List.length_reverse, hbslen])
          (fun b hb => hbsent b (List.mem_reverse.mp hb)))
        (Nat.pow_le_pow_right (by norm_num) ht64))]
      rw [Nat.testBit_lt_two_pow (lt_of_lt_of_le
        (canInt_lt f.frame_data hlen8 hbytes)
        (Nat.pow_le_pow_right (by norm_num) ht64))]
    | big =>
      have hs56 : s.startbit = 56 := by
        rw [hend] at hplace'
        rw [if_neg (by intro h; exact Endianness.noConfusion h)] at hplace'
        have hb := backward_eq s.startbit hstart'
        rw [hn64] at hplace'
        omega
      rw [hend, hn64, hs56] at hmask
      rw [show get_shiftedvalue_from_busvalue (2 ^ 64 - 1) Endianness.big 64 56 =
        2 ^ 64 - 1 from by decide] at hmask
      rw [Nat.testBit_two_pow_sub_one] at hmask
      have ht64 : 64 ≤ t := by
        by_contra hc
        rw [decide_eq_true (by omega : t < 64)] at hmask
        exact absurd hmask (by simp)
      simp only [hend] at hrest
      have hnew : f2.frame_data = bs := by
        injection hrest with h
        rw [← h]
      rw [hnew]
      rw [Nat.testBit_lt_two_pow (lt_of_lt_of_le
        (canInt_lt _ (by rw [hbslen]) hbsent)
        (Nat.pow_le_pow_right (by norm_num) ht64))]
      rw [Nat.testBit_lt_two_pow (lt_of_lt_of_le
        (canInt_lt f.frame_data hlen8 hbytes)
        (Nat.pow_le_pow_right (by norm_num) ht64))]

/-- Witness for C5: writing 85 into the 8-bit signal at startbit 16 of a
    4-byte payload leaves bit 0 of the payload integer unchanged. -/
theorem claim_c5_independence_witness :
    (can_bytes_to_int [170, 187, 85, 221]).testBit 0 =
      (can_bytes_to_int [0xAA, 0xBB, 0xCC, 0xDD]).testBit 0 :=
  claim_c5_independence
    { signalname := "s5", startbit := 16, numberofbits := 8 }
    { frame_id := 1, frame_data := [0xAA, 0xBB, 0xCC, 0xDD] }
    { frame_id := 1, frame_data := [170, 187, 85, 221] }
    (some 85) (by decide) (by norm_num) (by decide) (by decide) 0 (by decide)

/-- Reading a blank 64-character row after two set operations. -/
theorem set_set_getD (a b q : Nat) (ca cb : Char) (ha : a < 64) (hb : b < 64)
    (hq : q < 64) :
    (((List.replicate 64 ' ').set a ca).set b cb).getD q ' ' =
      if q = b then cb else if q = a then ca else ' ' := by
  by_cases h1 : q = b
  · subst h1
    rw [if_pos rfl, List.getD_eq_getElem?_getD, List.getElem?_set_self
      (by rw [List.length_set, List.length_replicate]; omega)]
    rfl
  · rw [if_neg h1, List.getD_eq_getElem?_getD,
      List.getElem?_set_ne (fun hc => h1 hc.symm)]
    by_cases h2 : q = a
    · subst h2
      rw [if_pos rfl, List.getElem?_set_self (by rw [List.length_replicate]; omega)]
      rfl
    · rw [if_neg h2, List.getElem?_set_ne (fun hc => h2 hc.symm),
        List.getElem?_replicate, if_pos hq]
      rfl

/-- The overview string of a valid signal is non-blank exactly at the
    positions of the bits the signal occupies: string position
    63 - backward(p) corresponds to normal bit p. -/
theorem overview_nonblank (s : CanSignalDefinition) (hvp : ValidPlacement s)
    (p : Nat) (hp : p < 64) :
    ((get_overview_string s).1.getD (63 - calculate_backward_bitnumber p) ' ' ≠ ' ')
      ↔ OccupiesBit s p := by
  obtain ⟨hn1, hstart, hplace, _, _⟩ := hvp
  have hstart' : s.startbit < 64 := by simpa [BITS_IN_FULL_DATA] using hstart
  have hbp : calculate_backward_bitnumber p < 64 := backward_lt p hp
  cases he : s.endianness with
  | little =>
    rw [he] at hplace
    have hstop : s.startbit + s.numberofbits - 1 < 64 := by
      simpa [BITS_IN_FULL_DATA] using hplace
    have hbs : calculate_backward_bitnumber s.startbit < 64 :=
      backward_lt _ hstart'
    have hbe : calculate_backward_bitnumber (s.startbit + s.numberofbits - 1) < 64 :=
      backward_lt _ hstop
    simp only [get_overview_string, he, BITS_IN_FULL_DATA,
      SYMBOL_MOST_SIGNIFICANT_BIT, SYMBOL_LEAST_SIGNIFICANT_BIT,
      SYMBOL_OTHER_VALID_BIT, OccupiesBit, if_true]
    by_cases hbig : 2 < s.numberofbits
    · rw [if_pos hbig]
      by_cases hmid : s.startbit + 1 ≤ p ∧ p ≤ s.startbit + s.numberofbits - 1 - 1
      · rw [show (64:ℕ) - 1 - calculate_backward_bitnumber p =
          64 - 1 - calculate_backward_bitnumber
            (s.startbit + 1 + (p - (s.startbit + 1))) from by
          rw [show s.startbit + 1 + (p - (s.startbit + 1)) = p from by omega]]
        rw [foldl_set_getD_hit ' '
          (fun _ => 'X')
          (fun i => 64 - 1 - calculate_backward_bitnumber (s.startbit + 1 + i))
          (s.startbit + s.numberofbits - 1 - (s.startbit + 1))
          _ (p - (s.startbit + 1)) (by omega)
          (fun a b ha hb hab => by
            simp only [] at hab
            have hla : calculate_backward_bitnumber (s.startbit + 1 + a) < 64 :=
              backward_lt _ (by omega)
            have hlb : calculate_backward_bitnumber (s.startbit + 1 + b) < 64 :=
              backward_lt _ (by omega)
            have heq := backward_inj (s.startbit + 1 + a) (s.startbit + 1 + b)
              (by omega) (by omega) (by omega)
            omega)
          (fun a ha => by
            simp only []
            rw [List.length_set, List.length_set, List.length_replicate]
            have := backward_lt (s.startbit + 1 + a) (by omega)
            omega)]
        constructor
        · intro _
          omega
        · intro _
          decide
      · rw [foldl_set_getD_miss ' ' _ _ _ _ _
          (fun i hi hc => by
            have hi64 : s.startbit + 1 + i < 64 := by omega
            have := backward_lt (s.startbit + 1 + i) hi64
            have heq := backward_inj (s.startbit + 1 + i) p hi64 hp (by omega)
            omega)]
        rw [show (64:ℕ) - 1 - calculate_backward_bitnumber
            (s.startbit + s.numberofbits - 1) = 63 - calculate_backward_bitnumber
            (s.startbit + s.numberofbits - 1) from rfl,
          show (64:ℕ) - 1 - calculate_backward_bitnumber s.startbit =
            63 - calculate_backward_bitnumber s.startbit from rfl,
          show (64:ℕ) - 1 - calculate_backward_bitnumber p =
            63 - calculate_backward_bitnumber p from rfl]
        rw [set_set_getD _ _ _ _ _ (by omega) (by omega) (by omega)]
        by_cases hps : p = s.startbit
        · rw [if_pos (by rw [hps])]
          constructor
          · intro _
            omega
          · intro _
            decide
        · rw [if_neg (fun hc => hps (by
            have heq := backward_inj p s.startbit hp hstart' (by omega)
            omega))]
          by_cases hpe : p = s.startbit + s.numberofbits - 1
          · rw [if_pos (by
              have : calculate_backward_bitnumber p = calculate_backward_bitnumber
                (s.startbit + s.numberofbits - 1) := by rw [hpe]
              omega)]
            constructor
            · intro _
              omega
            · intro _
              decide
          · rw [if_neg (fun hc => hpe (by
              have heq := backward_inj p (s.startbit + s.numberofbits - 1) hp
                hstop (by omega)
              omega))]
            constructor
            · intro hc
              exact absurd rfl hc
            · intro hc
              omega
    · rw [if_neg hbig]
      rw [show (64:ℕ) - 1 - calculate_backward_bitnumber
          (s.startbit + s.numberofbits - 1) = 63 - calculate_backward_bitnumber
          (s.startbit + s.numberofbits - 1) from rfl,
        show (64:ℕ) - 1 - calculate_backward_bitnumber s.startbit =
          63 - calculate_backward_bitnumber s.startbit from rfl,
        show (64:ℕ) - 1 - calculate_backward_bitnumber p =
          63 - calculate_backward_bitnumber p from rfl]
      rw [set_set_getD _ _ _ _ _ (by omega) (by omega) (by omega)]
      by_cases hps : p = s.startbit
      · rw [if_pos (by
          rw [hps])]
        constructor
        · intro _
          omega
        · intro _
          decide
      · rw [if_neg (fun hc => hps (by
          have heq := backward_inj p s.startbit hp hstart' (by omega)
          omega))]
        by_cases hpe : p = s.startbit + s.numberofbits - 1
        · rw [if_pos (by rw [hpe])]
          constructor
          · intro _
            omega
          · intro _
            decide
        · rw [if_neg (fun hc => hpe (by
            have heq := backward_inj p (s.startbit + s.numberofbits - 1) hp
              hstop (by omega)
            omega))]
          constructor
          · intro hc
            exact absurd rfl hc
          · intro hc
            omega
  | big =>
    rw [he] at hplace
    rw [if_neg (by intro h; exact Endianness.noConfusion h)] at hplace
    have hsbn : calculate_backward_bitnumber s.startbit + s.numberofbits - 1 < 64 := by
      simpa [BITS_IN_FULL_DATA] using hplace
    have hbs : calculate_backward_bitnumber s.startbit < 64 := backward_lt _ hstart'
    have hfalse : (Endianness.big = Endianness.little) = False := by
      simp
    simp only [get_overview_string, he, BITS_IN_FULL_DATA,
      SYMBOL_MOST_SIGNIFICANT_BIT, SYMBOL_LEAST_SIGNIFICANT_BIT,
      SYMBOL_OTHER_VALID_BIT, OccupiesBit, hfalse, if_false]
    by_cases hbig : 2 < s.numberofbits
    · rw [if_pos hbig]
      by_cases hmid : calculate_backward_bitnumber s.startbit + 1 ≤
          calculate_backward_bitnumber p ∧ calculate_backward_bitnumber p ≤
          calculate_backward_bitnumber s.startbit + s.numberofbits - 1 - 1
      · rw [show (64:ℕ) - 1 - calculate_backward_bitnumber p =
          64 - 1 - (calculate_backward_bitnumber s.startbit + 1 +
            (calculate_backward_bitnumber p -
              (calculate_backward_bitnumber s.startbit + 1))) from by omega]
        rw [foldl_set_getD_hit ' '
          (fun _ => 'X')
          (fun i => 64 - 1 - (calculate_backward_bitnumber s.startbit + 1 + i))
          (calculate_backward_bitnumber s.startbit + s.numberofbits - 1 -
            (calculate_backward_bitnumber s.startbit + 1))
          _ (calculate_backward_bitnumber p -
            (calculate_backward_bitnumber s.startbit + 1)) (by omega)
          (fun a b ha hb hab => by
            simp only [] at hab
            omega)
          (fun a ha => by
            simp only []
            rw [List.length_set, List.length_set, List.length_replicate]
            omega)]
        constructor
        · intro _
          omega
        · intro _
          decide
      · rw [foldl_set_getD_miss ' ' _ _ _ _ _
          (fun i hi hc => by omega)]
        rw [show (64:ℕ) - 1 - (calculate_backward_bitnumber s.startbit +
            s.numberofbits - 1) = 63 - (calculate_backward_bitnumber s.startbit +
            s.numberofbits - 1) from rfl,
          show (64:ℕ) - 1 - calculate_backward_bitnumber s.startbit =
            63 - calculate_backward_bitnumber s.startbit from rfl,
          show (64:ℕ) - 1 - calculate_backward_bitnumber p =
            63 - calculate_backward_bitnumber p from rfl]
        rw [set_set_getD _ _ _ _ _ (by omega) (by omega) (by omega)]
        by_cases hps : calculate_backward_bitnumber p =
            calculate_backward_bitnumber s.startbit
        · rw [if_pos (by omega)]
          constructor
          · intro _
            omega
          · intro _
            decide
        · rw [if_neg (by omega)]
          by_cases hpe : calculate_backward_bitnumber p =
              calculate_backward_bitnumber s.startbit + s.numberofbits - 1
          · rw [if_pos (by omega)]
            constructor
            · intro _
              omega
            · intro _
              decide
          · rw [if_neg (by omega)]
            constructor
            · intro hc
              exact absurd rfl hc
            · intro hc
              omega
    · rw [if_neg hbig]
      rw [show (64:ℕ) - 1 - (calculate_backward_bitnumber s.startbit +
          s.numberofbits - 1) = 63 - (calculate_backward_bitnumber s.startbit +
          s.numberofbits - 1) from rfl,
        show (64:ℕ) - 1 - calculate_backward_bitnumber s.startbit =
          63 - calculate_backward_bitnumber s.startbit from rfl,
        show (64:ℕ) - 1 - calculate_backward_bitnumber p =
          63 - calculate_backward_bitnumber p from rfl]
      rw [set_set_getD _ _ _ _ _ (by omega) (by omega) (by omega)]
      by_cases hps : calculate_backward_bitnumber p =
          calculate_backward_bitnumber s.startbit
      · rw [if_pos (by omega)]
        constructor
        · intro _
          omega
        · intro _
          decide
      · rw [if_neg (by omega)]
        by_cases hpe : calculate_backward_bitnumber p =
            calculate_backward_bitnumber s.startbit + s.numberofbits - 1
        · rw [if_pos (by omega)]
          constructor
          · intro _
            omega
          · intro _
            decide
        · rw [if_neg (by omega)]
          constructor
          · intro hc
            exact absurd rfl hc
          · intro hc
            omega

/-- Bits accumulated by the or-fold of get_signal_mask over the string
    positions. -/
theorem foldl_or_testBit (cond : Nat → Prop) [DecidablePred cond] (m acc t : Nat) :
    ((List.range m).foldl (fun a pos =>
        if cond pos then a ||| 2 ^ (63 - pos) else a) acc).testBit t = true ↔
      (acc.testBit t = true ∨ ∃ pos, pos < m ∧ cond pos ∧ 63 - pos = t) := by
  induction m with
  | zero =>
    simp
  | succ m ih =>
    rw [List.range_succ, List.foldl_append, List.foldl_cons, List.foldl_nil]
    by_cases hc : cond m
    · rw [if_pos hc, Nat.testBit_or]
      constructor
      · intro h
        rcases (Bool.or_eq_true _ _).mp h with h1 | h2
        · rcases ih.mp h1 with h3 | ⟨pos, hlt, hcp, hpt⟩
          · exact Or.inl h3
          · exact Or.inr ⟨pos, by omega, hcp, hpt⟩
        · refine Or.inr ⟨m, by omega, hc, ?_⟩
          by_contra hne
          rw [Nat.testBit_two_pow_of_ne hne] at h2
          exact absurd h2 (by simp)
      · intro h
        apply (Bool.or_eq_true _ _).mpr
        rcases h with h3 | ⟨pos, hlt, hcp, hpt⟩
        · exact Or.inl (ih.mpr (Or.inl h3))
        · by_cases hpm : pos = m
          · subst hpm
            rw [← hpt]
            exact Or.inr Nat.testBit_two_pow_self
          · exact Or.inl (ih.mpr (Or.inr ⟨pos, by omega, hcp, hpt⟩))
    · rw [if_neg hc]
      rw [ih]
      constructor
      · intro h
        rcases h with h3 | ⟨pos, hlt, hcp, hpt⟩
        · exact Or.inl h3
        · exact Or.inr ⟨pos, by omega, hcp, hpt⟩
      · intro h
        rcases h with h3 | ⟨pos, hlt, hcp, hpt⟩
        · exact Or.inl h3
        · refine Or.inr ⟨pos, ?_, hcp, hpt⟩
          rcases Nat.lt_succ_iff_lt_or_eq.mp hlt with h4 | h4
          · exact h4
          · subst h4
            exact absurd hcp hc

theorem foldl_or_lt (cond : Nat → Prop) [DecidablePred cond] (m acc : Nat)
    (hacc : acc < 2 ^ 64) :
    (List.range m).foldl (fun a pos =>
      if cond pos then a ||| 2 ^ (63 - pos) else a) acc < 2 ^ 64 := by
  induction m with
  | zero => exact hacc
  | succ m ih =>
    rw [List.range_succ, List.foldl_append, List.foldl_cons, List.foldl_nil]
    by_cases hc : cond m
    · rw [if_pos hc]
      exact Nat.or_lt_two_pow ih
        (Nat.pow_lt_pow_right (by norm_num) (by omega))
    · rw [if_neg hc]
      exact ih

/-- Bits accumulated by the outer fold of get_signal_mask over the signal
    list. -/
theorem mask_sig_testBit (sigs : List CanSignalDefinition) (acc t : Nat) :
    (sigs.foldl (fun a signaldef => (List.range 64).foldl (fun b pos =>
        if (get_overview_string signaldef).1.getD pos ' ' ≠ ' ' then
          b ||| 2 ^ (63 - pos) else b) a) acc).testBit t = true ↔
      (acc.testBit t = true ∨ ∃ sd ∈ sigs, ∃ pos, pos < 64 ∧
        (get_overview_string sd).1.getD pos ' ' ≠ ' ' ∧ 63 - pos = t) := by
  induction sigs generalizing acc with
  | nil =>
    simp
  | cons sd rest ih =>
    rw [List.foldl_cons, ih]
    rw [foldl_or_testBit]
    constructor
    · intro h
      rcases h with (h1 | ⟨pos, hlt, hcp, hpt⟩) | ⟨sd2, hmem, pos, hlt, hcp, hpt⟩
      · exact Or.inl h1
      · exact Or.inr ⟨sd, List.mem_cons_self _ _, pos, hlt, hcp, hpt⟩
      · exact Or.inr ⟨sd2, List.mem_cons_of_mem _ hmem, pos, hlt, hcp, hpt⟩
    · intro h
      rcases h with h1 | ⟨sd2, hmem, pos, hlt, hcp, hpt⟩
      · exact Or.inl (Or.inl h1)
      · rcases List.mem_cons.mp hmem with h2 | h2
        · subst h2
          exact Or.inl (Or.inr ⟨pos, hlt, hcp, hpt⟩)
        · exact Or.inr ⟨sd2, h2, pos, hlt, hcp, hpt⟩

theorem mask_sig_lt (sigs : List CanSignalDefinition) (acc : Nat)
    (hacc : acc < 2 ^ 64) :
    sigs.foldl (fun a signaldef => (List.range 64).foldl (fun b pos =>
      if (get_overview_string signaldef).1.getD pos ' ' ≠ ' ' then
        b ||| 2 ^ (63 - pos) else b) a) acc < 2 ^ 64 := by
  induction sigs generalizing acc with
  | nil => exact hacc
  | cons sd rest ih =>
    rw [List.foldl_cons]
    exact ih _ (foldl_or_lt _ _ _ hacc)

/-- Claim C4: the signal mask of the spec scenario frame definition (signals
    at start 56 with 1 bit little endian, start 8 with 16 bits big endian,
    start 24 with 16 bits little endian, start 48 with 8 bits signed little
    endian) is exactly FF FF 00 FF FF 00 FF 01; and in general, for a frame
    definition whose signals all pass the placement checks, a bit of the
    mask is set exactly when some signal of the frame occupies that bit
    position, with the bit accounting of the spec. -/
theorem claim_c4_signal_mask :
    get_signal_mask c4_fd = [0xFF, 0xFF, 0, 0xFF, 0xFF, 0, 0xFF, 0x01] ∧
    ∀ (fd : CanFrameDefinition),
      (∀ sd ∈ fd.signaldefinitions, ValidPlacement sd) →
      ∀ p, p < 64 →
      ((can_bytes_to_int (get_signal_mask fd)).testBit
          (calculate_backward_bitnumber p) = true ↔
        ∃ sd ∈ fd.signaldefinitions, OccupiesBit sd p) := by
  refine ⟨by decide, ?_⟩
  intro fd hvalid p hp
  have hbp : calculate_backward_bitnumber p < 64 := backward_lt p hp
  simp only [get_signal_mask, BITS_IN_FULL_DATA, MAX_NUMBER_OF_CAN_DATA_BYTES,
    show (64:ℕ) - 1 = 63 from rfl]
  rw [canInt_int_to_can_bytes 8 _ (by norm_num) (mask_sig_lt _ _ (by norm_num))]
  rw [show (256:ℕ) ^ (8 - 8) = 1 from by norm_num, Nat.div_one, Nat.mul_one]
  rw [mask_sig_testBit]
  constructor
  · intro h
    rcases h with h1 | ⟨sd, hmem, pos, hlt, hcp, hpt⟩
    · rw [Nat.zero_testBit] at h1
      exact absurd h1 (by simp)
    · have hpos : pos = 63 - calculate_backward_bitnumber p := by omega
      refine ⟨sd, hmem, ?_⟩
      rw [← overview_nonblank sd (hvalid sd hmem) p hp, ← hpos]
      exact hcp
  · intro h
    rcases h with ⟨sd, hmem, hocc⟩
    refine Or.inr ⟨sd, hmem, 63 - calculate_backward_bitnumber p, by omega, ?_,
      by omega⟩
    rw [overview_nonblank sd (hvalid sd hmem) p hp]
    exact hocc

/-- Witness for C4: bit 30 lies inside the 16-bit little-endian signal at
    startbit 24, and the mask has the corresponding bit set. -/
theorem claim_c4_signal_mask_witness :
    ((can_bytes_to_int (get_signal_mask c4_fd)).testBit
        (calculate_backward_bitnumber 30) = true ↔
      ∃ sd ∈ c4_fd.signaldefinitions, OccupiesBit sd 30) ∧
    (∃ sd ∈ c4_fd.signaldefinitions, OccupiesBit sd 30) :=
  ⟨claim_c4_signal_mask.2 c4_fd (by decide) 30 (by norm_num), by decide⟩

end Can4pythonAll

end Can4python
